import Mathlib

/-!
Shallow embedding of the money-muling analysis engine
(`analyzeTransactions` and its helper detectors).

Conventions of the embedding:
* account / transaction ids are `String`, compared with the same
  lexicographic order the source uses (`<` on strings);
* `amount` is `ℤ` (the source computes with JS numbers; every
  claim-relevant comparison is exact over the integers, and the
  division-based thresholds of the source are embedded as the
  exactly-equivalent integer comparisons, documented at each site);
* `timestamp` is `ℤ`, the epoch-millisecond value the source reads with
  `Date.getTime()`;
* JS `Map` / `Set` with their insertion-order iteration are embedded as
  association lists / duplicate-free lists built in insertion order;
* the wall-clock `processing_time_seconds` field of the summary is the
  only field of the result not modelled (it depends on real time).
-/

namespace Rifthack

/-- `Transaction` record of the source (`types.ts`). -/
structure Transaction where
  transaction_id : String
  sender_id : String
  receiver_id : String
  amount : ℤ
  timestamp : ℤ
deriving DecidableEq, Repr

/-- `SuspiciousAccount` record of the source (`types.ts`). -/
structure SuspiciousAccount where
  account_id : String
  suspicion_score : ℕ
  detected_patterns : List String
  ring_id : String
deriving DecidableEq, Repr

/-- `FraudRing` record of the source (`types.ts`). -/
structure FraudRing where
  ring_id : String
  member_accounts : List String
  pattern_type : String
  risk_score : ℕ
deriving DecidableEq, Repr

/-- `GraphNode` record of the source (`types.ts`). -/
structure GraphNode where
  id : String
  suspicious : Bool
  suspicion_score : ℕ
  ring_ids : List String
  in_degree : ℕ
  out_degree : ℕ
  total_amount_in : ℤ
  total_amount_out : ℤ
deriving DecidableEq, Repr

/-- `GraphEdge` record of the source (`types.ts`). -/
structure GraphEdge where
  source : String
  target : String
  amount : ℤ
  transaction_id : String
  timestamp : ℤ
deriving DecidableEq, Repr

/-- `GraphData` record of the source (`types.ts`). -/
structure GraphData where
  nodes : List GraphNode
  edges : List GraphEdge
deriving DecidableEq, Repr

/-- The `summary` object of `AnalysisResult`, without the wall-clock
`processing_time_seconds` field (real time is outside the embedding). -/
structure Summary where
  total_accounts_analyzed : ℕ
  suspicious_accounts_flagged : ℕ
  fraud_rings_detected : ℕ
deriving DecidableEq, Repr

/-- `AnalysisResult` record of the source (`types.ts`). -/
structure AnalysisResult where
  suspicious_accounts : List SuspiciousAccount
  fraud_rings : List FraudRing
  summary : Summary
  graph : GraphData
deriving DecidableEq, Repr

/-- `EdgeInfo` of the analyzer: one adjacency-list entry. -/
structure EdgeInfo where
  target : String
  amount : ℤ
  timestamp : ℤ
  transaction_id : String
deriving DecidableEq, Repr

/-- `NodeStats` of the analyzer. -/
structure NodeStats where
  inDegree : ℕ
  outDegree : ℕ
  totalAmountIn : ℤ
  totalAmountOut : ℤ
  totalTransactions : ℕ
deriving DecidableEq, Repr

/-! ### JS collection helpers

The source iterates over `Map`s and `Set`s, whose iteration order is
insertion order.  We model a `Set` as a duplicate-free list in insertion
order and a `Map` as an association list in key-insertion order. -/

/-- Insertion-order deduplication: the list of first occurrences,
exactly the iteration order of a JS `Set` filled from the list. -/
def jsDedup (l : List String) : List String :=
  l.foldl (fun acc a => if a ∈ acc then acc else acc ++ [a]) []

/-- First-match lookup in an association list (JS `Map.get`). -/
def lookupL {α : Type} (m : List (String × α)) (k : String) : Option α :=
  (m.find? (fun p => p.1 == k)).map (·.2)

/-- Update the entry of `k` with `upd` (JS `map.get(k)` after a
`map.set(k, [])` default), appending a fresh entry at the end when the
key is new — exactly the `if (!m.has(k)) m.set(k, []); …` idiom. -/
def pushEntry {α : Type} (upd : List α → List α) :
    List (String × List α) → String → List (String × List α)
  | [], k => [(k, upd [])]
  | (k', l) :: rest, k =>
    if k' = k then (k', upd l) :: rest else (k', l) :: pushEntry upd rest k

/-- `m.get(k)!.push(v)` with default-create, on the association list. -/
def pushVal {α : Type} (m : List (String × List α)) (k : String) (v : α) :
    List (String × List α) :=
  pushEntry (fun l => l ++ [v]) m k

/-- `m.get(k)!.add(v)` (set semantics) with default-create. -/
def addToSet {α : Type} [DecidableEq α]
    (m : List (String × List α)) (k : String) (v : α) :
    List (String × List α) :=
  pushEntry (fun l => if v ∈ l then l else l ++ [v]) m k

/-- Group a transaction list by a key, preserving both the key insertion
order and the per-key transaction order (the `byReceiver` / `bySender`
construction of `detectSmurfing`). -/
def groupByKey (key : Transaction → String) (txs : List Transaction) :
    List (String × List Transaction) :=
  txs.foldl (fun m t => pushVal m (key t) t) []

/-- `Math.max(...l)` on a list of integers; the source only applies it
to non-empty lists, for which the default is irrelevant. -/
def listMaxZ (l : List ℤ) : ℤ := l.foldl max (l.headD 0)

/-- `Math.min(...l)` on a list of integers (non-empty at every use). -/
def listMinZ (l : List ℤ) : ℤ := l.foldl min (l.headD 0)

/-- `String(n).padStart(3, '0')`. -/
def padStart3 (s : String) : String :=
  if 3 ≤ s.length then s else String.mk (List.replicate (3 - s.length) '0') ++ s

/-! ### Graph construction (`analyzeTransactions`, adjacency phase) -/

/-- The `allNodes` set: senders and receivers in insertion order. -/
def allNodesOf (txs : List Transaction) : List String :=
  jsDedup (txs.flatMap (fun t => [t.sender_id, t.receiver_id]))

/-- Forward adjacency list `adjList`: for each sender, its outgoing
edges in transaction order (`adjList[id] || []` reads default to `[]`,
so a total function is a faithful model). -/
def adjListOf (txs : List Transaction) : String → List EdgeInfo := fun id =>
  (txs.filter (fun t => t.sender_id == id)).map
    (fun t => ⟨t.receiver_id, t.amount, t.timestamp, t.transaction_id⟩)

/-- Reverse adjacency list `reverseAdj`. -/
def reverseAdjOf (txs : List Transaction) : String → List EdgeInfo := fun id =>
  (txs.filter (fun t => t.receiver_id == id)).map
    (fun t => ⟨t.sender_id, t.amount, t.timestamp, t.transaction_id⟩)

/-- The `nodeStats` map in its iteration order (keyed by `allNodes`). -/
def nodeStatsList (txs : List Transaction) : List (String × NodeStats) :=
  (allNodesOf txs).map (fun id =>
    (id, { inDegree := (reverseAdjOf txs id).length
           outDegree := (adjListOf txs id).length
           totalAmountIn := ((reverseAdjOf txs id).map (·.amount)).sum
           totalAmountOut := ((adjListOf txs id).map (·.amount)).sum
           totalTransactions :=
             (reverseAdjOf txs id).length + (adjListOf txs id).length }))

/-- `nodeStats.get` as a partial lookup. -/
def statsFnOf (txs : List Transaction) : String → Option NodeStats := fun id =>
  lookupL (nodeStatsList txs) id

/-! ### Cycle detection (`findCycles`) -/

/-- The `for (const edge of adj[current] || [])` body of the `dfs` of
`findCycles`: record the path as a cycle when the edge closes back to
the start inside the length bounds, otherwise descend through `deeper`
when the target is fresh and the depth bound allows. -/
def dfsEdges (start : String) (minLen maxLen : ℕ) (processed : List String)
    (deeper : String → List String → ℕ → List (List String)) :
    List EdgeInfo → List String → ℕ → List (List String)
  | [], _, _ => []
  | e :: rest, path, depth =>
    (if e.target = start ∧ minLen ≤ depth + 1 ∧ depth + 1 ≤ maxLen then
      [path]
    else if e.target ∉ path ∧ e.target ∉ processed ∧ depth + 1 < maxLen then
      deeper e.target (path ++ [e.target]) (depth + 1)
    else []) ++
    dfsEdges start minLen maxLen processed deeper rest path depth

/-- The recursive `dfs` of `findCycles`.  `fuel` only serves
termination: every descent is guarded by `depth + 1 < maxLen` and
consumes one unit, so starting with `fuel = maxLen` at `depth = 0` the
fuel-exhausted cutoff is never taken. -/
def dfsCycles (adj : String → List EdgeInfo) (start : String)
    (minLen maxLen : ℕ) (processed : List String) :
    ℕ → String → List String → ℕ → List (List String)
  | 0, current, path, depth =>
    dfsEdges start minLen maxLen processed (fun _ _ _ => [])
      (adj current) path depth
  | f + 1, current, path, depth =>
    dfsEdges start minLen maxLen processed
      (dfsCycles adj start minLen maxLen processed f) (adj current) path depth

/-- The outer loop of `findCycles`: one depth-first search per start
node, with the growing `processed` set. -/
def cycleStarts (adj : String → List EdgeInfo) (minLen maxLen : ℕ) :
    List String → List String → List (List String)
  | [], _ => []
  | start :: rest, processed =>
    dfsCycles adj start minLen maxLen processed maxLen start [start] 0 ++
    cycleStarts adj minLen maxLen rest (processed ++ [start])

/-- JS `<` on strings, i.e. lexicographic comparison of the character
sequences, as an executable Bool (`jsStrLt_iff_lt` below identifies it
with the ambient strict order on `String`). -/
def jsStrLt (a b : String) : Bool := decide (a.data < b.data)

/-- `cycle.reduce((m, id) => (id < m ? id : m), cycle[0])`. -/
def minOfCycle (c : List String) : String :=
  c.foldl (fun m id => if jsStrLt id m then id else m) (c.headD "")

/-- Rotation to the lexicographically smallest member:
`[...cycle.slice(idx), ...cycle.slice(0, idx)]` at `idx = indexOf min`. -/
def normalizeCycle (c : List String) : List String :=
  let idx := c.indexOf (minOfCycle c)
  c.drop idx ++ c.take idx

/-- `normalized.join('|')`. -/
def cycleKey (c : List String) : String := String.intercalate "|" c

/-- The deduplication pass of `findCycles`: keep the first cycle of each
normalized key, in discovery order. -/
def dedupCycles (cycles : List (List String)) : List (List String) :=
  (cycles.foldl
    (fun (st : List String × List (List String)) c =>
      let n := normalizeCycle c
      let key := cycleKey n
      if key ∈ st.1 then st else (st.1 ++ [key], st.2 ++ [n]))
    ([], [])).2

/-- `findCycles(adj, nodes, minLen, maxLen)`. -/
def findCycles (adj : String → List EdgeInfo) (nodes : List String)
    (minLen maxLen : ℕ) : List (List String) :=
  dedupCycles (cycleStarts adj minLen maxLen nodes [])

/-! ### Smurfing detection (`detectSmurfing`) -/

/-- A `{type, accounts}` pattern hit of `detectSmurfing`. -/
structure SmurfPattern where
  type : String
  accounts : List String
deriving DecidableEq, Repr

/-- `72 * 3_600_000` milliseconds. -/
def WINDOW_MS : ℤ := 72 * 3600000

/-- Sort transactions by ascending timestamp
(`txs.sort((a, b) => a.timestamp.getTime() - b.timestamp.getTime())`;
JS sort is stable, as is `insertionSort`, so both produce the unique
stable ascending reordering). -/
def sortByTs (txs : List Transaction) : List Transaction :=
  txs.insertionSort (fun a b => a.timestamp ≤ b.timestamp)

/-- The distinct senders inside the 72-hour window anchored at
`anchor`, in first-appearance order (`uniqueSenders` of the source). -/
def fanInWindowSenders (all : List Transaction) (anchor : Transaction) :
    List String :=
  jsDedup ((all.filter (fun t =>
    decide (anchor.timestamp ≤ t.timestamp ∧
      t.timestamp ≤ anchor.timestamp + WINDOW_MS))).map (·.sender_id))

/-- The distinct receivers inside the 72-hour window anchored at
`anchor` (`uniqueRecvs` of the source). -/
def fanOutWindowRecvs (all : List Transaction) (anchor : Transaction) :
    List String :=
  jsDedup ((all.filter (fun t =>
    decide (anchor.timestamp ≤ t.timestamp ∧
      t.timestamp ≤ anchor.timestamp + WINDOW_MS))).map (·.receiver_id))

/-- The anchor scan of a fan-in group: for each anchor transaction in
order, collect the group's transactions inside `[anchor, anchor+72h]`
and stop at the first anchor whose window holds at least 10 distinct
senders, returning those senders in first-appearance order. -/
def scanFanIn (all : List Transaction) : List Transaction → Option (List String)
  | [] => none
  | anchor :: rest =>
    if 10 ≤ (fanInWindowSenders all anchor).length then
      some (fanInWindowSenders all anchor)
    else scanFanIn all rest

/-- Mirror of `scanFanIn` over receivers (the fan-out direction). -/
def scanFanOut (all : List Transaction) : List Transaction → Option (List String)
  | [] => none
  | anchor :: rest =>
    if 10 ≤ (fanOutWindowRecvs all anchor).length then
      some (fanOutWindowRecvs all anchor)
    else scanFanOut all rest

/-- `detectSmurfing(transactions, nodeStats)`.  The `nodeStats`
parameter is part of the source signature but never read by the body. -/
def detectSmurfing (transactions : List Transaction)
    (_nodeStats : List (String × NodeStats)) : List SmurfPattern :=
  let fanIns := (groupByKey (·.receiver_id) transactions).foldl
    (fun acc p =>
      let sorted := sortByTs p.2
      match scanFanIn sorted sorted with
      | some senders => acc ++ [⟨"fan_in", p.1 :: senders⟩]
      | none => acc) []
  let fanOuts := (groupByKey (·.sender_id) transactions).foldl
    (fun acc p =>
      let sorted := sortByTs p.2
      match scanFanOut sorted sorted with
      | some recvs => acc ++ [⟨"fan_out", p.1 :: recvs⟩]
      | none => acc) []
  fanIns ++ fanOuts

/-- Per-anchor distinct-sender counts of a receiver's 72-hour windows,
in anchor order: the quantity `detectSmurfing` thresholds on. -/
def fanInWindowCounts (txs : List Transaction) (r : String) : List ℕ :=
  let sorted := sortByTs ((lookupL (groupByKey (·.receiver_id) txs) r).getD [])
  sorted.map (fun anchor => (fanInWindowSenders sorted anchor).length)

/-- Mirror of `fanInWindowCounts` for senders / distinct receivers. -/
def fanOutWindowCounts (txs : List Transaction) (s : String) : List ℕ :=
  let sorted := sortByTs ((lookupL (groupByKey (·.sender_id) txs) s).getD [])
  sorted.map (fun anchor => (fanOutWindowRecvs sorted anchor).length)

/-! ### Shell networks (`detectShellNetworks`) -/

/-- The shell predicate `s && s.totalTransactions <= 3` of the source
(`false` when the stats lookup misses). -/
def isShell (stats : String → Option NodeStats) (id : String) : Bool :=
  match stats id with
  | some s => s.totalTransactions ≤ 3
  | none => false

/-- The `while (chain.length < 8)` extension loop.  `fuel` only serves
termination: every iteration grows the chain by one and the guard stops
at length 8, so `fuel = 8` from a length-2 chain never runs out. -/
def extendChain (adj : String → List EdgeInfo)
    (stats : String → Option NodeStats) :
    ℕ → List String → List String → String → List String
  | 0, chain, _, _ => chain
  | fuel + 1, chain, visited, current =>
    if chain.length < 8 then
      let nextEdges := (adj current).filter (fun e => !visited.contains e.target)
      match nextEdges.find? (fun e => isShell stats e.target) with
      | some e =>
        extendChain adj stats fuel (chain ++ [e.target]) (visited ++ [e.target])
          e.target
      | none =>
        match nextEdges with
        | [] => chain
        | e :: _ => chain ++ [e.target]
    else chain

/-- The body of the inner `for (const edge of adj[start] || [])` loop
of `detectShellNetworks`: start a chain when the first hop is a shell
account, extend it greedily, and keep it when it has at least 4
accounts and its `'→'`-joined key is unseen. -/
def shellEdgeStep (adj : String → List EdgeInfo)
    (stats : String → Option NodeStats) (start : String)
    (st : List String × List (List String)) (edge : EdgeInfo) :
    List String × List (List String) :=
  if isShell stats edge.target then
    let chain := extendChain adj stats 8 [start, edge.target]
      [start, edge.target] edge.target
    if 4 ≤ chain.length then
      let key := String.intercalate "→" chain
      if key ∈ st.1 then st else (st.1 ++ [key], st.2 ++ [chain])
    else st
  else st

/-- The body of the outer `for (const start of allNodes)` loop of
`detectShellNetworks`: skip low-activity origins. -/
def shellStep (adj : String → List EdgeInfo)
    (stats : String → Option NodeStats)
    (st : List String × List (List String)) (start : String) :
    List String × List (List String) :=
  match stats start with
  | none => st
  | some startStats =>
    if startStats.totalTransactions ≤ 3 then st
    else (adj start).foldl (shellEdgeStep adj stats start) st

/-- `detectShellNetworks(adj, nodeStats, allNodes)`: chains from a
high-activity origin through low-activity intermediaries, kept at
length ≥ 4 and deduplicated by the `'→'`-joined key. -/
def detectShellNetworks (adj : String → List EdgeInfo)
    (stats : String → Option NodeStats) (allNodes : List String) :
    List (List String) :=
  (allNodes.foldl (shellStep adj stats) ([], [])).2

/-! ### False-positive classifiers -/

/-- `detectMerchants(nodeStats, transactions)`: in-degree ≥ 20, ≥ 15
distinct senders, and incoming timestamps spanning more than 168 hours.
The source compares `(max - min) / 3_600_000 > 168`; over the integer
timestamps this is exactly `168 * 3600000 < max - min`. -/
def detectMerchants (nodeStats : List (String × NodeStats))
    (transactions : List Transaction) : List String :=
  nodeStats.foldl
    (fun acc p =>
      if p.2.inDegree < 20 then acc
      else
        let incoming := transactions.filter (fun t => t.receiver_id == p.1)
        let uniqueSenders := jsDedup (incoming.map (·.sender_id))
        if 15 ≤ uniqueSenders.length then
          let ts := incoming.map (·.timestamp)
          if 168 * 3600000 < listMaxZ ts - listMinZ ts then acc ++ [p.1]
          else acc
        else acc)
    []

/-- Mean of the outgoing amounts of `id` (division by zero in `ℚ`
yields `0`, matching the "no outgoing transfers" degenerate case only
reachable behind the out-degree guard).  Statement-level companion of
the integer arithmetic inside `detectPayroll`. -/
def meanOutgoing (transactions : List Transaction) (id : String) : ℚ :=
  let amounts := (transactions.filter (fun t => t.sender_id == id)).map (·.amount)
  ((amounts.sum : ℤ) : ℚ) / (amounts.length : ℚ)

/-- Population variance of the outgoing amounts of `id`
(statement-level companion). -/
def varOutgoing (transactions : List Transaction) (id : String) : ℚ :=
  let amounts := (transactions.filter (fun t => t.sender_id == id)).map (·.amount)
  let mean := meanOutgoing transactions id
  ((amounts.map (fun a => ((a : ℚ) - mean) ^ 2)).sum) / (amounts.length : ℚ)

/-- `Math.sqrt(variance) / mean < 0.15` of the payroll classifier,
expressed exactly over the integers, where `n`, `s` and `q` are the
count, the sum and the sum of squares of the outgoing amounts
(`mean = s/n`, `variance = q/n - s²/n²`):
* `mean = 0` (over the reals: `s = 0`, which also covers the empty
  `n = 0` case) gives `NaN` or `+Infinity`, so the comparison is
  `false`;
* `mean < 0` (`s < 0`) gives a nonpositive value or `-Infinity`:
  `true`;
* `mean > 0`: `sqrt variance < 0.15 * mean` squares (both sides
  nonnegative) to `400 * variance < 9 * mean²`, and multiplying by
  `n² > 0` gives `400 * n * q < 409 * s ^ 2`.
`cvBelow_iff_of_pos` below certifies the positive-mean equivalence. -/
def cvBelow (n : ℕ) (s q : ℤ) : Bool :=
  if s = 0 then false
  else if s < 0 then true
  else decide (400 * (n : ℤ) * q < 409 * s ^ 2)

/-- `detectPayroll(nodeStats, transactions)`: out-degree ≥ 10 and
coefficient of variation of outgoing amounts below 0.15. -/
def detectPayroll (nodeStats : List (String × NodeStats))
    (transactions : List Transaction) : List String :=
  nodeStats.foldl
    (fun acc p =>
      if p.2.outDegree < 10 then acc
      else
        let amounts := (transactions.filter
          (fun t => t.sender_id == p.1)).map (·.amount)
        if cvBelow amounts.length amounts.sum ((amounts.map (fun a => a ^ 2)).sum)
        then acc ++ [p.1]
        else acc)
    []

/-! ### Ring aggregation (`addRing` and its call sites) -/

/-- One pattern hit handed to `addRing`:
`(members, patternType, baseScore, patternTag)`. -/
structure Hit where
  members : List String
  ptype : String
  base : ℕ
  tag : String
deriving DecidableEq, Repr

/-- `members.filter(id => !legit.has(id))`. -/
def filteredMembers (legit : List String) (members : List String) : List String :=
  members.filter (fun id => !legit.contains id)

/-- `` `RING_${String(n).padStart(3, '0')}` ``. -/
def ringIdString (n : ℕ) : String := "RING_" ++ padStart3 (toString n)

/-- The `FraudRing` pushed by `addRing` for hit `h` at counter value `n`
(after the increment), with its clamped risk score. -/
def mkRing (legit : List String) (n : ℕ) (h : Hit) : FraudRing :=
  { ring_id := ringIdString n
    member_accounts := filteredMembers legit h.members
    pattern_type := h.ptype
    risk_score := min 100 (h.base + (filteredMembers legit h.members).length * 2) }

/-- The mutable state the `addRing` closure captures. -/
structure RingState where
  ringCounter : ℕ
  fraudRings : List FraudRing
  acctRings : List (String × List String)
  acctPatterns : List (String × List String)
deriving DecidableEq, Repr

/-- `addRing(members, patternType, baseScore, patternTag)`: drop excluded
members, require at least 2 survivors, push the ring, and record the
ring id and pattern tag for every surviving member in order. -/
def addRing (legit : List String) (st : RingState) (h : Hit) : RingState :=
  let filtered := filteredMembers legit h.members
  if filtered.length < 2 then st
  else
    let ringId := ringIdString (st.ringCounter + 1)
    let maps := filtered.foldl
      (fun (pr : List (String × List String) × List (String × List String)) id =>
        (pushVal pr.1 id ringId, addToSet pr.2 id h.tag))
      (st.acctRings, st.acctPatterns)
    { ringCounter := st.ringCounter + 1
      fraudRings := st.fraudRings ++ [mkRing legit (st.ringCounter + 1) h]
      acctRings := maps.1
      acctPatterns := maps.2 }

/-- The three `addRing` loops as one hit list, in call order: cycles
(base `75 + 3·length`, tag `cycle_length_N`), smurfing patterns
(base 65, tag = type), shell chains (base 70, tag `shell_network`). -/
def ringHits (cycles : List (List String)) (smurfs : List SmurfPattern)
    (shells : List (List String)) : List Hit :=
  cycles.map (fun c => ⟨c, "cycle", 75 + c.length * 3,
    "cycle_length_" ++ toString c.length⟩) ++
  smurfs.map (fun p => ⟨p.accounts, p.type, 65, p.type⟩) ++
  shells.map (fun c => ⟨c, "shell_network", 70, "shell_network"⟩)

/-- `new Set([...merchants, ...payroll])`. -/
def legitOf (txs : List Transaction) : List String :=
  jsDedup (detectMerchants (nodeStatsList txs) txs ++
    detectPayroll (nodeStatsList txs) txs)

/-- The ring-aggregation state after all three `addRing` loops. -/
def ringStateOf (txs : List Transaction) : RingState :=
  (ringHits (findCycles (adjListOf txs) (allNodesOf txs) 3 5)
      (detectSmurfing txs (nodeStatsList txs))
      (detectShellNetworks (adjListOf txs) (statsFnOf txs) (allNodesOf txs))).foldl
    (addRing (legitOf txs)) ⟨0, [], [], []⟩

/-! ### Account scoring -/

/-- `transactions.filter(t => t.sender_id === id || t.receiver_id === id)`. -/
def touchingTxs (transactions : List Transaction) (id : String) :
    List Transaction :=
  transactions.filter (fun t => t.sender_id == id || t.receiver_id == id)

/-- `sorted[sorted.length - 1] - sorted[0]`: the span, in epoch
milliseconds, from the earliest to the latest transaction touching
`id`. -/
def spanMsTouching (transactions : List Transaction) (id : String) : ℤ :=
  let sorted := ((touchingTxs transactions id).map (·.timestamp)).insertionSort
    (· ≤ ·)
  sorted.getLastD 0 - sorted.headD 0

/-- The span in hours, `spanH = (last - first) / 3_600_000` of the
source (statement-level companion of `spanMsTouching`). -/
def spanHoursTouching (transactions : List Transaction) (id : String) : ℚ :=
  ((spanMsTouching transactions id : ℤ) : ℚ) / 3600000

/-- The velocity condition of the scorer: more than one touching
transaction, full span under 24 hours, and more than 5 touching
transactions.  The source compares `spanH < 24` over hours; over the
integer millisecond timestamps this is exactly
`spanMs < 24 * 3600000`. -/
def velocityCheck (transactions : List Transaction) (id : String) : Bool :=
  let txs := touchingTxs transactions id
  if 1 < txs.length then
    decide (spanMsTouching transactions id < 24 * 3600000) &&
      decide (5 < txs.length)
  else false

/-- JS `p.startsWith(prefix)` evaluated on the character sequences
(the byte-position loop behind `String.startsWith` is
kernel-opaque; prefix of the character sequence is the same
predicate). -/
def strStartsWith (s pre : String) : Bool := pre.data.isPrefixOf s.data

/-- The additive pattern-tag score: +35 for any cycle tag, +25 for
fan_in, +25 for fan_out, +20 for shell_network, +15 for more than one
ring. -/
def basePatternScore (patterns : List String) (ringCount : ℕ) : ℕ :=
  (if patterns.any (fun p => strStartsWith p "cycle_") then 35 else 0) +
  (if "fan_in" ∈ patterns then 25 else 0) +
  (if "fan_out" ∈ patterns then 25 else 0) +
  (if "shell_network" ∈ patterns then 20 else 0) +
  (if 1 < ringCount then 15 else 0)

/-- The suspicious-account entry built for one `acctRings` entry
`p = (id, ringIds)`.  The score is a natural number, so
`parseFloat(score.toFixed(1))` is the identity and only the clamp at
100 remains. -/
def mkSuspicious (transactions : List Transaction)
    (acctPatterns : List (String × List String)) (p : String × List String) :
    SuspiciousAccount :=
  let patterns0 := (lookupL acctPatterns p.1).getD []
  let score0 := basePatternScore patterns0 p.2.length
  let vel := velocityCheck transactions p.1
  let score := score0 + (if vel then 15 else 0)
  let patterns := if vel then
      (if "high_velocity" ∈ patterns0 then patterns0
       else patterns0 ++ ["high_velocity"])
    else patterns0
  { account_id := p.1
    suspicion_score := min 100 score
    detected_patterns := patterns
    ring_id := p.2.headD "" }

/-- The scoring loop over the `acctRings` entries. -/
def buildSuspicious (transactions : List Transaction) (legit : List String)
    (acctRings acctPatterns : List (String × List String)) :
    List SuspiciousAccount :=
  acctRings.foldl
    (fun acc p =>
      if legit.contains p.1 then acc
      else acc ++ [mkSuspicious transactions acctPatterns p])
    []

/-- `sort((a, b) => b.suspicion_score - a.suspicion_score)`: stable
descending sort by score. -/
def sortSuspicious (l : List SuspiciousAccount) : List SuspiciousAccount :=
  l.insertionSort (fun a b => b.suspicion_score ≤ a.suspicion_score)

/-! ### Result assembly -/

/-- The graph-node construction of `analyzeTransactions` (the stats
lookup cannot miss for a member of `allNodes`; the `getD` default is
unreachable). -/
def buildNodes (allNodes : List String) (stats : String → Option NodeStats)
    (suspiciousAccounts : List SuspiciousAccount)
    (acctRings : List (String × List String)) (legit : List String) :
    List GraphNode :=
  allNodes.map (fun id =>
    let s := (stats id).getD ⟨0, 0, 0, 0, 0⟩
    let sa := suspiciousAccounts.find? (fun a => a.account_id == id)
    { id := id
      suspicious := (lookupL acctRings id).isSome && !legit.contains id
      suspicion_score := (sa.map (·.suspicion_score)).getD 0
      ring_ids := (lookupL acctRings id).getD []
      in_degree := s.inDegree
      out_degree := s.outDegree
      total_amount_in := s.totalAmountIn
      total_amount_out := s.totalAmountOut })

/-- `analyzeTransactions(transactions)`. -/
def analyzeTransactions (transactions : List Transaction) : AnalysisResult :=
  let allNodes := allNodesOf transactions
  let legit := legitOf transactions
  let final := ringStateOf transactions
  let suspiciousAccounts := sortSuspicious
    (buildSuspicious transactions legit final.acctRings final.acctPatterns)
  let graphNodes := buildNodes allNodes (statsFnOf transactions)
    suspiciousAccounts final.acctRings legit
  let graphEdges : List GraphEdge := transactions.map (fun tx =>
    { source := tx.sender_id
      target := tx.receiver_id
      amount := tx.amount
      transaction_id := tx.transaction_id
      timestamp := tx.timestamp })
  { suspicious_accounts := suspiciousAccounts
    fraud_rings := final.fraudRings
    summary := { total_accounts_analyzed := allNodes.length
                 suspicious_accounts_flagged := suspiciousAccounts.length
                 fraud_rings_detected := final.fraudRings.length }
    graph := { nodes := graphNodes, edges := graphEdges } }

/-! ### Concrete inputs used by the witnesses and counterexamples -/

/-- `n` hours in epoch milliseconds. -/
def hrs (n : ℤ) : ℤ := n * 3600000

/-- A transfer of amount 100. -/
def tx (i : ℕ) (s r : String) (t : ℤ) : Transaction :=
  ⟨"T" ++ toString i, s, r, 100, t⟩

/-- The §8 end-to-end scenario: a 3-cycle `A → B → C → A`, one hour
apart. -/
def exCycle : List Transaction :=
  [tx 1 "A" "B" (hrs 0), tx 2 "B" "C" (hrs 1), tx 3 "C" "A" (hrs 2)]

/-- The 3-cycle plus four quick fans out of `A`: `A` touches 6
transfers, all within 7 hours. -/
def exVel : List Transaction :=
  exCycle ++ [tx 4 "A" "X1" (hrs 3), tx 5 "A" "X2" (hrs 4),
    tx 6 "A" "X3" (hrs 5), tx 7 "A" "X4" (hrs 6)]

/-- `exVel` plus one transfer of `A` far in the future: 6 transfers
touching `A` sit inside a 24-hour window, yet the full span of the 7
touching transfers is about 1000 hours. -/
def exCex : List Transaction := exVel ++ [tx 8 "A" "Y" (hrs 1000)]

/-- Nine distinct senders into `R` plus a self transfer `R → R`, all
within 10 hours: a fan-in hit whose member list contains `R` twice. -/
def exSelfFan : List Transaction :=
  ((List.range 9).map (fun i =>
    tx (i + 1) ("S" ++ toString (i + 1)) "R" (hrs i))) ++
  [tx 10 "R" "R" (hrs 9)]

/-- Exactly 10 distinct senders into `R` within one 72-hour window. -/
def exFan10 : List Transaction :=
  (List.range 10).map (fun i =>
    tx (i + 1) ("S" ++ toString (i + 1)) "R" (hrs i))

/-- Only 9 distinct senders into `R`. -/
def exFan9 : List Transaction :=
  (List.range 9).map (fun i =>
    tx (i + 1) ("S" ++ toString (i + 1)) "R" (hrs i))

/-- A high-activity origin `H` (4 transactions) that routes through the
low-activity chain `Sa → Sb → Sc`. -/
def exShell : List Transaction :=
  [tx 1 "H" "Sa" (hrs 0), tx 2 "Sa" "Sb" (hrs 1), tx 3 "Sb" "Sc" (hrs 2),
   tx 4 "H" "M1" (hrs 3), tx 5 "H" "M2" (hrs 4), tx 6 "H" "M3" (hrs 5)]

/-- `P` pays 10 distinct accounts an amount of 0: mean outgoing amount
is 0. -/
def exPay : List Transaction :=
  (List.range 10).map (fun i =>
    ⟨"T" ++ toString (i + 1), "P", "W" ++ toString (i + 1), 0, hrs i⟩)

/-! ## Lemmas about the JS collection helpers -/

theorem jsDedup_go_mem (l : List String) (acc : List String) (a : String) :
    a ∈ l.foldl (fun acc a => if a ∈ acc then acc else acc ++ [a]) acc ↔
      a ∈ acc ∨ a ∈ l := by
  induction l generalizing acc with
  | nil => simp
  | cons b t ih =>
    simp only [List.foldl_cons, ih, List.mem_cons]
    by_cases hb : b ∈ acc
    · simp [hb]
      constructor
      · tauto
      · rintro (h | h | h) <;> try tauto
        subst h; tauto
    · simp [hb, List.mem_append]
      tauto

theorem jsDedup_mem (l : List String) (a : String) :
    a ∈ jsDedup l ↔ a ∈ l := by
  simp [jsDedup, jsDedup_go_mem]

theorem lookupL_nil {α : Type} (k : String) : lookupL ([] : List (String × α)) k = none := rfl

theorem lookupL_cons {α : Type} (k' : String) (v : α) (m : List (String × α))
    (k : String) :
    lookupL ((k', v) :: m) k = if k' = k then some v else lookupL m k := by
  simp only [lookupL, List.find?]
  by_cases h : k' = k
  · simp [h]
  · simp only [h, if_false]
    have : ((k', v).1 == k) = false := by simpa using h
    simp [this]

theorem lookupL_pushEntry_self {α : Type} (upd : List α → List α)
    (m : List (String × List α)) (k : String) :
    lookupL (pushEntry upd m k) k = some (upd ((lookupL m k).getD [])) := by
  induction m with
  | nil => simp [pushEntry, lookupL_cons, lookupL_nil]
  | cons p rest ih =>
    obtain ⟨k', l⟩ := p
    by_cases h : k' = k
    · simp [pushEntry, h, lookupL_cons]
    · simp [pushEntry, h, lookupL_cons, ih]

theorem lookupL_pushEntry_ne {α : Type} (upd : List α → List α)
    (m : List (String × List α)) (k k' : String) (h : k' ≠ k) :
    lookupL (pushEntry upd m k) k' = lookupL m k' := by
  have h' : ∀ hk : k = k', False := fun hk => h hk.symm
  induction m with
  | nil =>
    simp only [pushEntry, lookupL_cons, lookupL_nil]
    rw [if_neg h']
  | cons p rest ih =>
    obtain ⟨k0, l⟩ := p
    by_cases h0 : k0 = k
    · subst h0
      have he : pushEntry upd ((k0, l) :: rest) k0 = (k0, upd l) :: rest := by
        simp [pushEntry]
      rw [he, lookupL_cons, lookupL_cons, if_neg h', if_neg h']
    · simp only [pushEntry, h0, if_false, lookupL_cons]
      by_cases hk : k0 = k'
      · rw [if_pos hk, if_pos hk]
      · rw [if_neg hk, if_neg hk, ih]

/-- The keys of an association list, in order. -/
def keysOf {α : Type} (m : List (String × α)) : List String := m.map Prod.fst

theorem keysOf_pushEntry {α : Type} (upd : List α → List α)
    (m : List (String × List α)) (k : String) :
    keysOf (pushEntry upd m k) =
      if k ∈ keysOf m then keysOf m else keysOf m ++ [k] := by
  induction m with
  | nil => simp [pushEntry, keysOf]
  | cons p rest ih =>
    obtain ⟨k0, l⟩ := p
    by_cases h0 : k0 = k
    · subst h0
      simp [pushEntry, keysOf]
    · simp only [pushEntry, h0, if_false, keysOf, List.map_cons, List.mem_cons]
      have h0' : ¬ k = k0 := fun hk => h0 hk.symm
      by_cases hk : k ∈ keysOf rest
      · simp only [keysOf] at hk
        simp [h0', hk, keysOf] at ih ⊢
        exact ih
      · simp only [keysOf] at hk
        simp [h0', hk, keysOf] at ih ⊢
        exact ih

theorem keysOf_pushEntry_nodup {α : Type} (upd : List α → List α)
    (m : List (String × List α)) (k : String) (h : (keysOf m).Nodup) :
    (keysOf (pushEntry upd m k)).Nodup := by
  rw [keysOf_pushEntry]
  by_cases hk : k ∈ keysOf m
  · simpa [hk]
  · simpa [hk, List.nodup_append] using h

theorem lookupL_of_mem_nodup {α : Type} (m : List (String × α)) (k : String)
    (v : α) (hn : (keysOf m).Nodup) (hm : (k, v) ∈ m) : lookupL m k = some v := by
  induction m with
  | nil => simp at hm
  | cons p rest ih =>
    obtain ⟨k0, v0⟩ := p
    simp only [keysOf, List.map_cons, List.nodup_cons] at hn
    rcases List.mem_cons.mp hm with h | h
    · obtain ⟨hk, hv⟩ : k = k0 ∧ v = v0 := by simpa [Prod.ext_iff] using h
      rw [lookupL_cons, if_pos hk.symm, hv]
    · have hk0 : k0 ≠ k := by
        intro he
        subst he
        exact hn.1 (by simpa [keysOf] using List.mem_map_of_mem Prod.fst h)
      rw [lookupL_cons]
      simp only [hk0, if_false]
      exact ih (by simpa [keysOf] using hn.2) h

theorem mem_of_lookupL_eq_some {α : Type} (m : List (String × α)) (k : String)
    (v : α) (h : lookupL m k = some v) : (k, v) ∈ m := by
  induction m with
  | nil => simp [lookupL_nil] at h
  | cons p rest ih =>
    obtain ⟨k0, v0⟩ := p
    rw [lookupL_cons] at h
    by_cases h0 : k0 = k
    · subst h0
      rw [if_pos rfl] at h
      obtain hv : v0 = v := by simpa using h
      rw [← hv]
      exact List.mem_cons_self _ _
    · rw [if_neg h0] at h
      exact List.mem_cons_of_mem _ (ih h)

theorem keysOf_pushVal {α : Type} (m : List (String × List α)) (k : String)
    (v : α) :
    keysOf (pushVal m k v) = if k ∈ keysOf m then keysOf m else keysOf m ++ [k] :=
  keysOf_pushEntry _ m k

theorem keysOf_pushVal_nodup {α : Type} (m : List (String × List α))
    (k : String) (v : α) (h : (keysOf m).Nodup) : (keysOf (pushVal m k v)).Nodup :=
  keysOf_pushEntry_nodup _ m k h

/-- Effect of the per-member `acctRings.get(id)!.push(ringId)` loop on a
single lookup: members receive one copy of the ring id per occurrence. -/
theorem lookupL_foldl_pushVal {α : Type} (ids : List String) (v : α)
    (m : List (String × List α)) (k : String) :
    lookupL (ids.foldl (fun m id => pushVal m id v) m) k =
      if k ∈ ids then
        some ((lookupL m k).getD [] ++ List.replicate (ids.count k) v)
      else lookupL m k := by
  induction ids generalizing m with
  | nil => simp
  | cons id rest ih =>
    simp only [List.foldl_cons]
    by_cases hid : id = k
    · subst hid
      rw [ih]
      by_cases hk : id ∈ rest
      · simp only [hk, if_true, List.mem_cons, true_or, if_true,
          lookupL_pushEntry_self (fun l => l ++ [v]) m id, pushVal]
        simp only [Option.getD_some, List.count_cons_self,
          List.replicate_succ' (List.count id rest) v, List.append_assoc]
        rw [List.singleton_append, ← List.replicate_succ, List.replicate_succ']
      · simp only [hk, if_false, List.mem_cons, true_or, if_true,
          lookupL_pushEntry_self (fun l => l ++ [v]) m id, pushVal]
        simp [List.count_cons, List.count_eq_zero_of_not_mem hk]
    · have hki : ¬ k = id := fun h => hid h.symm
      rw [ih]
      have hlk : lookupL (pushVal m id v) k = lookupL m k :=
        lookupL_pushEntry_ne _ m id k hki
      by_cases hk : k ∈ rest
      · simp only [hk, if_true, List.mem_cons, or_true, if_true, hlk,
          List.count_cons]
        simp [hki, hid]
      · have hmem : ¬ k ∈ id :: rest := by
          simp only [List.mem_cons, not_or]
          exact ⟨hki, hk⟩
        simp [hk, hmem, hlk]

/-- Effect of the per-member `acctPatterns.get(id)!.add(tag)` loop on a
single lookup: members end with the tag added once. -/
theorem lookupL_foldl_addToSet (ids : List String) (v : String)
    (m : List (String × List String)) (k : String) :
    lookupL (ids.foldl (fun m id => addToSet m id v) m) k =
      if k ∈ ids then
        some (if v ∈ (lookupL m k).getD [] then (lookupL m k).getD []
          else (lookupL m k).getD [] ++ [v])
      else lookupL m k := by
  induction ids generalizing m with
  | nil => simp
  | cons id rest ih =>
    simp only [List.foldl_cons]
    by_cases hid : id = k
    · subst hid
      rw [ih]
      have hs := lookupL_pushEntry_self
        (fun l => if v ∈ l then l else l ++ [v]) m id
      by_cases hk : id ∈ rest
      · simp only [hk, if_true, List.mem_cons, true_or, if_true, addToSet, hs]
        by_cases hv : v ∈ (lookupL m id).getD []
        · simp [hv]
        · simp [hv]
      · simp only [hk, if_false, List.mem_cons, true_or, if_true, addToSet, hs]
    · have hki : ¬ k = id := fun h => hid h.symm
      rw [ih]
      have hlk : lookupL (addToSet m id v) k = lookupL m k :=
        lookupL_pushEntry_ne _ m id k hki
      by_cases hk : k ∈ rest
      · simp [hk, hlk]
      · have hmem : ¬ k ∈ id :: rest := by
          simp only [List.mem_cons, not_or]
          exact ⟨hki, hk⟩
        simp [hk, hmem, hlk]

/-- The per-member loop of `addRing` updates the two account maps
independently. -/
theorem foldl_pair_maps (ids : List String) (rid tag : String)
    (a b : List (String × List String)) :
    (ids.foldl
      (fun (pr : List (String × List String) × List (String × List String)) id =>
        (pushVal pr.1 id rid, addToSet pr.2 id tag)) (a, b)) =
      (ids.foldl (fun m id => pushVal m id rid) a,
       ids.foldl (fun m id => addToSet m id tag) b) := by
  induction ids generalizing a b with
  | nil => rfl
  | cons id rest ih => simp only [List.foldl_cons, ih]

/-! ## Lemmas about `addRing` and the ring-aggregation fold -/

theorem mem_filteredMembers (legit members : List String) (a : String) :
    a ∈ filteredMembers legit members ↔ a ∈ members ∧ a ∉ legit := by
  simp [filteredMembers, List.mem_filter]

/-- Every ring in the folded state is either inherited from the initial
state or built by `mkRing` from one of the hits, with at least two
surviving members. -/
theorem mem_foldl_addRing (legit : List String) (hits : List Hit)
    (st : RingState) (r : FraudRing)
    (hr : r ∈ (hits.foldl (addRing legit) st).fraudRings) :
    r ∈ st.fraudRings ∨ ∃ h ∈ hits, ∃ n, r = mkRing legit n h ∧
      2 ≤ (filteredMembers legit h.members).length := by
  induction hits generalizing st with
  | nil => exact Or.inl hr
  | cons h0 rest ih =>
    simp only [List.foldl_cons] at hr
    rcases ih (addRing legit st h0) hr with hin | ⟨h, hh, n, hn, hlen⟩
    · by_cases hsmall : (filteredMembers legit h0.members).length < 2
      · rw [addRing, if_pos hsmall] at hin
        exact Or.inl hin
      · rw [addRing, if_neg hsmall] at hin
        simp only [List.mem_append, List.mem_singleton] at hin
        rcases hin with hin | hin
        · exact Or.inl hin
        · exact Or.inr ⟨h0, List.mem_cons_self _ _, st.ringCounter + 1, hin,
            Nat.le_of_not_lt hsmall⟩
    · exact Or.inr ⟨h, List.mem_cons_of_mem _ hh, n, hn, hlen⟩

theorem keysOf_foldl_pushEntry_nodup {α : Type} (upd : List α → List α)
    (ids : List String) (m : List (String × List α))
    (h : (keysOf m).Nodup) :
    (keysOf (ids.foldl (fun m id => pushEntry upd m id) m)).Nodup := by
  induction ids generalizing m with
  | nil => exact h
  | cons id rest ih =>
    exact ih (pushEntry upd m id) (keysOf_pushEntry_nodup upd m id h)

/-- The keys of both account maps stay duplicate-free through the
aggregation fold. -/
theorem addRing_keys_nodup (legit : List String) (hits : List Hit)
    (st : RingState) (h1 : (keysOf st.acctRings).Nodup)
    (h2 : (keysOf st.acctPatterns).Nodup) :
    (keysOf (hits.foldl (addRing legit) st).acctRings).Nodup ∧
      (keysOf (hits.foldl (addRing legit) st).acctPatterns).Nodup := by
  induction hits generalizing st with
  | nil => exact ⟨h1, h2⟩
  | cons h0 rest ih =>
    simp only [List.foldl_cons]
    refine ih (addRing legit st h0) ?_ ?_ <;> rw [addRing]
    · by_cases hsmall : (filteredMembers legit h0.members).length < 2
      · simpa [hsmall] using h1
      · simp only [hsmall, if_false]
        rw [foldl_pair_maps]
        exact keysOf_foldl_pushEntry_nodup _ _ _ h1
    · by_cases hsmall : (filteredMembers legit h0.members).length < 2
      · simpa [hsmall] using h2
      · simp only [hsmall, if_false]
        rw [foldl_pair_maps]
        exact keysOf_foldl_pushEntry_nodup _ _ _ h2

/-- Invariant tying the `acctRings` map to the pushed rings: each
account's ring-id list holds, ring by ring in assignment order, one
copy of the ring id per occurrence of the account among the ring's
members; an entry exists exactly for members of some ring; and ring
members never lie in the exclusion set. -/
def RingInv (legit : List String) (st : RingState) : Prop :=
  (∀ id, (lookupL st.acctRings id).getD [] =
    st.fraudRings.flatMap
      (fun r => List.replicate (r.member_accounts.count id) r.ring_id)) ∧
  (∀ id, (lookupL st.acctRings id).isSome = true ↔
    ∃ r ∈ st.fraudRings, id ∈ r.member_accounts) ∧
  (∀ r ∈ st.fraudRings, ∀ a ∈ r.member_accounts, a ∉ legit)

theorem ringInv_addRing (legit : List String) (st : RingState) (h : Hit)
    (hinv : RingInv legit st) : RingInv legit (addRing legit st h) := by
  obtain ⟨inv1, inv2, inv3⟩ := hinv
  rw [addRing]
  by_cases hsmall : (filteredMembers legit h.members).length < 2
  · simpa [hsmall] using ⟨inv1, inv2, inv3⟩
  · simp only [hsmall, if_false]
    rw [foldl_pair_maps]
    set rid := ringIdString (st.ringCounter + 1) with hrid
    set filtered := filteredMembers legit h.members with hfil
    refine ⟨?_, ?_, ?_⟩
    · intro id
      simp only
      rw [lookupL_foldl_pushVal]
      by_cases hid : id ∈ filtered
      · simp only [hid, if_true, Option.getD_some, List.flatMap_append]
        rw [inv1 id]
        simp [mkRing, ← hfil, ← hrid]
      · simp only [hid, if_false, List.flatMap_append]
        rw [inv1 id]
        simp [mkRing, ← hfil, List.count_eq_zero_of_not_mem hid]
    · intro id
      simp only
      rw [lookupL_foldl_pushVal]
      by_cases hid : id ∈ filtered
      · simp only [hid, if_true, Option.isSome_some, true_iff]
        exact ⟨mkRing legit (st.ringCounter + 1) h,
          List.mem_append_right _ (List.mem_singleton_self _),
          by simpa [mkRing, ← hfil] using hid⟩
      · simp only [hid, if_false]
        rw [inv2 id]
        constructor
        · rintro ⟨r, hr, ha⟩
          exact ⟨r, List.mem_append_left _ hr, ha⟩
        · rintro ⟨r, hr, ha⟩
          rcases List.mem_append.mp hr with hr | hr
          · exact ⟨r, hr, ha⟩
          · rw [List.mem_singleton] at hr
            subst hr
            simp only [mkRing, ← hfil] at ha
            exact absurd ha hid
    · intro r hr a ha
      simp only at hr
      rcases List.mem_append.mp hr with hr | hr
      · exact inv3 r hr a ha
      · rw [List.mem_singleton] at hr
        subst hr
        simp only [mkRing, ← hfil] at ha
        exact ((mem_filteredMembers legit h.members a).mp ha).2

theorem ringInv_foldl (legit : List String) (hits : List Hit) (st : RingState)
    (hinv : RingInv legit st) :
    RingInv legit (hits.foldl (addRing legit) st) := by
  induction hits generalizing st with
  | nil => exact hinv
  | cons h0 rest ih =>
    exact ih (addRing legit st h0) (ringInv_addRing legit st h0 hinv)

theorem ringInv_ringStateOf (txs : List Transaction) :
    RingInv (legitOf txs) (ringStateOf txs) := by
  refine ringInv_foldl _ _ _ ⟨?_, ?_, ?_⟩ <;> simp [lookupL_nil]

/-! ## Field equations of `analyzeTransactions` -/

theorem analyze_fraud_rings (txs : List Transaction) :
    (analyzeTransactions txs).fraud_rings = (ringStateOf txs).fraudRings := rfl

theorem analyze_suspicious (txs : List Transaction) :
    (analyzeTransactions txs).suspicious_accounts =
      sortSuspicious (buildSuspicious txs (legitOf txs)
        (ringStateOf txs).acctRings (ringStateOf txs).acctPatterns) := rfl

theorem analyze_nodes (txs : List Transaction) :
    (analyzeTransactions txs).graph.nodes =
      buildNodes (allNodesOf txs) (statsFnOf txs)
        (analyzeTransactions txs).suspicious_accounts
        (ringStateOf txs).acctRings (legitOf txs) := rfl

theorem not_mem_legitOf (txs : List Transaction) (a : String)
    (h : a ∉ legitOf txs) :
    a ∉ detectMerchants (nodeStatsList txs) txs ∧
      a ∉ detectPayroll (nodeStatsList txs) txs := by
  rw [legitOf] at h
  rw [jsDedup_mem, List.mem_append] at h
  push_neg at h
  exact h

/-- C1: every fraud ring in the output of `analyzeTransactions` has at
least 2 member accounts, and no member is classified as a merchant (by
`detectMerchants`) or as payroll (by `detectPayroll`). -/
theorem ring_members_at_least_two_and_not_excluded (txs : List Transaction)
    (r : FraudRing) (hr : r ∈ (analyzeTransactions txs).fraud_rings) :
    2 ≤ r.member_accounts.length ∧
      ∀ a ∈ r.member_accounts,
        a ∉ detectMerchants (nodeStatsList txs) txs ∧
          a ∉ detectPayroll (nodeStatsList txs) txs := by
  rw [analyze_fraud_rings] at hr
  rcases mem_foldl_addRing (legitOf txs) _ _ r hr with h | ⟨h, _, n, hn, hlen⟩
  · simp [ringStateOf] at h
  · subst hn
    refine ⟨by simpa [mkRing] using hlen, ?_⟩
    intro a ha
    simp only [mkRing] at ha
    exact not_mem_legitOf txs a ((mem_filteredMembers _ _ a).mp ha).2

/-- C1 witness: the §8 three-cycle produces the ring
`RING_001 = {A, B, C}`, which satisfies both conclusions. -/
theorem ring_members_at_least_two_and_not_excluded_witness :
    2 ≤ (FraudRing.mk "RING_001" ["A", "B", "C"] "cycle" 90).member_accounts.length ∧
      ∀ a ∈ (FraudRing.mk "RING_001" ["A", "B", "C"] "cycle" 90).member_accounts,
        a ∉ detectMerchants (nodeStatsList exCycle) exCycle ∧
          a ∉ detectPayroll (nodeStatsList exCycle) exCycle :=
  ring_members_at_least_two_and_not_excluded exCycle
    (FraudRing.mk "RING_001" ["A", "B", "C"] "cycle" 90) (by decide)

/-- C10 (amended): a graph node is flagged suspicious exactly when the
account appears among the member accounts of at least one output ring,
and its `ring_ids` list carries, ring by ring in assignment order, one
copy of the ring id for each occurrence of the account among that ring's
member accounts (a fan-in ring can list its receiver twice). -/
theorem graph_node_suspicious_ring_ids (txs : List Transaction) (n : GraphNode)
    (hn : n ∈ (analyzeTransactions txs).graph.nodes) :
    (n.suspicious = true ↔
      ∃ r ∈ (analyzeTransactions txs).fraud_rings, n.id ∈ r.member_accounts) ∧
    n.ring_ids = (analyzeTransactions txs).fraud_rings.flatMap
      (fun r => List.replicate (r.member_accounts.count n.id) r.ring_id) := by
  obtain ⟨inv1, inv2, inv3⟩ := ringInv_ringStateOf txs
  rw [analyze_nodes, buildNodes] at hn
  obtain ⟨a, _, hne⟩ := List.mem_map.mp hn
  subst hne
  rw [analyze_fraud_rings]
  simp only
  constructor
  · rw [Bool.and_eq_true, Bool.not_eq_true']
    constructor
    · rintro ⟨hs, _⟩
      exact (inv2 a).mp hs
    · intro hex
      refine ⟨(inv2 a).mpr hex, ?_⟩
      obtain ⟨r, hr, ha⟩ := hex
      have hnl : a ∉ legitOf txs := inv3 r hr a ha
      simpa using hnl
  · exact inv1 a

/-- C10 witness: on the §8 three-cycle the node of account `A` is
suspicious, belongs to the single ring, and lists `RING_001` once. -/
theorem graph_node_suspicious_ring_ids_witness :
    ((GraphNode.mk "A" true 35 ["RING_001"] 1 1 100 100).suspicious = true ↔
      ∃ r ∈ (analyzeTransactions exCycle).fraud_rings,
        (GraphNode.mk "A" true 35 ["RING_001"] 1 1 100 100).id ∈
          r.member_accounts) ∧
    (GraphNode.mk "A" true 35 ["RING_001"] 1 1 100 100).ring_ids =
      (analyzeTransactions exCycle).fraud_rings.flatMap
        (fun r => List.replicate
          (r.member_accounts.count
            (GraphNode.mk "A" true 35 ["RING_001"] 1 1 100 100).id) r.ring_id) :=
  graph_node_suspicious_ring_ids exCycle
    (GraphNode.mk "A" true 35 ["RING_001"] 1 1 100 100) (by decide)

/-- C10 counterexample: with a fan-in ring whose receiver also appears
among its own distinct senders (a self transfer), the receiver's node
lists the same ring id twice, which differs from "the list of rings
containing it". -/
theorem graph_node_ring_ids_counterexample :
    ∃ n ∈ (analyzeTransactions exSelfFan).graph.nodes,
      n.ring_ids ≠ ((analyzeTransactions exSelfFan).fraud_rings.filter
        (fun r => r.member_accounts.contains n.id)).map (·.ring_id) := by
  decide

/-- C9: on the empty transfer list `analyzeTransactions` returns the
all-zero summary and empty suspicious-account, ring, graph-node and
graph-edge lists. -/
theorem analyze_empty_input :
    (analyzeTransactions []).summary.total_accounts_analyzed = 0 ∧
    (analyzeTransactions []).summary.suspicious_accounts_flagged = 0 ∧
    (analyzeTransactions []).summary.fraud_rings_detected = 0 ∧
    (analyzeTransactions []).suspicious_accounts = [] ∧
    (analyzeTransactions []).fraud_rings = [] ∧
    (analyzeTransactions []).graph.nodes = [] ∧
    (analyzeTransactions []).graph.edges = [] := by
  decide

/-- The mean outgoing amount vanishes exactly when the summed outgoing
amount vanishes (with no outgoing transfers both are zero). -/
theorem meanOutgoing_eq_zero_iff (txs : List Transaction) (id : String) :
    meanOutgoing txs id = 0 ↔
      (((txs.filter (fun t => t.sender_id == id)).map (·.amount)).sum = 0) := by
  rw [meanOutgoing]
  constructor
  · intro h
    rcases div_eq_zero_iff.mp h with h | h
    · exact_mod_cast h
    · have hlen : ((txs.filter (fun t => t.sender_id == id)).map
        (·.amount)).length = 0 := by exact_mod_cast h
      rw [List.length_eq_zero] at hlen
      rw [hlen]
      rfl
  · intro h
    rw [h]
    simp

/-- C3: an account whose mean outgoing amount is zero is never added to
the payroll exclusion set (the coefficient-of-variation test treats
the zero-mean case as a failed comparison, exactly as the source's
float division does). -/
theorem payroll_skips_zero_mean (nodeStats : List (String × NodeStats))
    (txs : List Transaction) (id : String)
    (h : meanOutgoing txs id = 0) :
    id ∉ detectPayroll nodeStats txs := by
  have hsum := (meanOutgoing_eq_zero_iff txs id).mp h
  rw [detectPayroll]
  suffices hgen : ∀ acc : List String, id ∉ acc →
      id ∉ nodeStats.foldl
        (fun acc p =>
          if p.2.outDegree < 10 then acc
          else
            let amounts := (txs.filter (fun t => t.sender_id == p.1)).map (·.amount)
            if cvBelow amounts.length amounts.sum
                ((amounts.map (fun a => a ^ 2)).sum)
            then acc ++ [p.1] else acc)
        acc by
    exact hgen [] (List.not_mem_nil id)
  intro acc hacc
  induction nodeStats generalizing acc with
  | nil => exact hacc
  | cons p rest ih =>
    simp only [List.foldl_cons]
    by_cases hdeg : p.2.outDegree < 10
    · simp only [hdeg, if_true]
      exact ih acc hacc
    · simp only [hdeg, if_false]
      by_cases hcv : cvBelow ((txs.filter (fun t => t.sender_id == p.1)).map
          (·.amount)).length
          ((txs.filter (fun t => t.sender_id == p.1)).map (·.amount)).sum
          ((((txs.filter (fun t => t.sender_id == p.1)).map (·.amount)).map
            (fun a => a ^ 2)).sum) = true
      · simp only [hcv, if_true]
        refine ih (acc ++ [p.1]) ?_
        rw [List.mem_append, List.mem_singleton]
        rintro (hin | heq)
        · exact hacc hin
        · subst heq
          rw [cvBelow, if_pos hsum] at hcv
          exact Bool.false_ne_true hcv
      · simp only [hcv, if_false]
        exact ih acc hacc

/-- C3 witness: account `P` pays 10 distinct accounts an amount of 0;
its mean outgoing amount is 0 and it is not classified as payroll. -/
theorem payroll_skips_zero_mean_witness :
    meanOutgoing exPay "P" = 0 ∧
      "P" ∉ detectPayroll (nodeStatsList exPay) exPay := by
  have hmean : meanOutgoing exPay "P" = 0 :=
    (meanOutgoing_eq_zero_iff exPay "P").mpr (by decide)
  exact ⟨hmean, payroll_skips_zero_mean (nodeStatsList exPay) exPay "P" hmean⟩

/-! ## Lemmas about `detectSmurfing` -/

/-- Membership in one direction loop of `detectSmurfing`: exactly the
patterns of the initial accumulator plus one `⟨tag, key :: hit⟩` per
group whose anchor scan succeeds. -/
theorem mem_groupScanFold (groups : List (String × List Transaction))
    (h : String × List Transaction → Option (List String)) (tag : String)
    (acc : List SmurfPattern) (p : SmurfPattern) :
    p ∈ groups.foldl
      (fun acc g =>
        match h g with
        | some s => acc ++ [⟨tag, g.1 :: s⟩]
        | none => acc) acc ↔
    p ∈ acc ∨ ∃ g ∈ groups, ∃ s, h g = some s ∧ p = ⟨tag, g.1 :: s⟩ := by
  induction groups generalizing acc with
  | nil => simp
  | cons g rest ih =>
    simp only [List.foldl_cons]
    rcases hg : h g with _ | s
    · simp only [hg, ih]
      constructor
      · rintro (hp | hp)
        · exact Or.inl hp
        · exact Or.inr (by
            obtain ⟨g', hg', s', hs', hp'⟩ := hp
            exact ⟨g', List.mem_cons_of_mem _ hg', s', hs', hp'⟩)
      · rintro (hp | ⟨g', hg', s', hs', hp'⟩)
        · exact Or.inl hp
        · rcases List.mem_cons.mp hg' with rfl | hg'
          · rw [hg] at hs'
            exact absurd hs' (Option.noConfusion)
          · exact Or.inr ⟨g', hg', s', hs', hp'⟩
    · simp only [hg, ih, List.mem_append, List.mem_singleton]
      constructor
      · rintro ((hp | hp) | hp)
        · exact Or.inl hp
        · exact Or.inr ⟨g, List.mem_cons_self _ _, s, hg, hp⟩
        · obtain ⟨g', hg', s', hs', hp'⟩ := hp
          exact Or.inr ⟨g', List.mem_cons_of_mem _ hg', s', hs', hp'⟩
      · rintro (hp | ⟨g', hg', s', hs', hp'⟩)
        · exact Or.inl (Or.inl hp)
        · rcases List.mem_cons.mp hg' with rfl | hg'
          · rw [hg] at hs'
            obtain rfl : s = s' := by simpa using hs'
            exact Or.inl (Or.inr hp')
          · exact Or.inr ⟨g', hg', s', hs', hp'⟩

/-- Membership in `detectSmurfing`: a fan-in hit of some receiver group
or a fan-out hit of some sender group. -/
theorem mem_detectSmurfing_iff (txs : List Transaction)
    (ns : List (String × NodeStats)) (p : SmurfPattern) :
    p ∈ detectSmurfing txs ns ↔
      (∃ g ∈ groupByKey (·.receiver_id) txs, ∃ s,
        scanFanIn (sortByTs g.2) (sortByTs g.2) = some s ∧
        p = ⟨"fan_in", g.1 :: s⟩) ∨
      (∃ g ∈ groupByKey (·.sender_id) txs, ∃ s,
        scanFanOut (sortByTs g.2) (sortByTs g.2) = some s ∧
        p = ⟨"fan_out", g.1 :: s⟩) := by
  have h1 := mem_groupScanFold (groupByKey (·.receiver_id) txs)
    (fun g => scanFanIn (sortByTs g.2) (sortByTs g.2)) "fan_in" [] p
  have h2 := mem_groupScanFold (groupByKey (·.sender_id) txs)
    (fun g => scanFanOut (sortByTs g.2) (sortByTs g.2)) "fan_out" [] p
  simp only [List.not_mem_nil, false_or] at h1 h2
  rw [detectSmurfing]
  simp only [List.mem_append]
  rw [h1, h2]

/-- Every smurfing pattern is tagged `fan_in` or `fan_out`. -/
theorem detectSmurfing_type (txs : List Transaction)
    (ns : List (String × NodeStats)) (p : SmurfPattern)
    (hp : p ∈ detectSmurfing txs ns) :
    p.type = "fan_in" ∨ p.type = "fan_out" := by
  rcases (mem_detectSmurfing_iff txs ns p).mp hp with
    ⟨_, _, _, _, rfl⟩ | ⟨_, _, _, _, rfl⟩
  · exact Or.inl rfl
  · exact Or.inr rfl

/-- C4: every output ring's risk score is
`min(100, baseScore + 2 × member count)` with the pattern-dependent
base: `75 + 3 × cycleLength` for cycle rings (`cycleLength` being the
length of the discovered cycle before member filtering), 65 for
fan_in/fan_out rings and 70 for shell_network rings; a length-3 cycle
with 3 surviving members scores exactly 90. -/
theorem ring_risk_score_formula (txs : List Transaction) (r : FraudRing)
    (hr : r ∈ (analyzeTransactions txs).fraud_rings) :
    (r.pattern_type = "cycle" →
      ∃ c ∈ findCycles (adjListOf txs) (allNodesOf txs) 3 5,
        r.member_accounts = filteredMembers (legitOf txs) c ∧
        r.risk_score = min 100 ((75 + 3 * c.length) + 2 * r.member_accounts.length) ∧
        (c.length = 3 → r.member_accounts.length = 3 → r.risk_score = 90)) ∧
    ((r.pattern_type = "fan_in" ∨ r.pattern_type = "fan_out") →
      r.risk_score = min 100 (65 + 2 * r.member_accounts.length)) ∧
    (r.pattern_type = "shell_network" →
      r.risk_score = min 100 (70 + 2 * r.member_accounts.length)) := by
  rw [analyze_fraud_rings] at hr
  rcases mem_foldl_addRing (legitOf txs) _ _ r hr with h | ⟨h, hh, n, hn, _⟩
  · simp [ringStateOf] at h
  · rw [ringHits] at hh
    simp only [List.mem_append, List.mem_map] at hh
    rcases hh with (⟨c, hc, rfl⟩ | ⟨q, hq, rfl⟩) | ⟨c, hc, rfl⟩
    · subst hn
      refine ⟨?_, ?_, ?_⟩
      · intro _
        refine ⟨c, hc, rfl, ?_, ?_⟩
        · simp only [mkRing]
          congr 1
          omega
        · intro hcl hml
          simp only [mkRing] at hml ⊢
          rw [hml, hcl]
          decide
      · intro habs
        rcases habs with habs | habs <;> simp only [mkRing] at habs <;>
          exact absurd habs (by decide)
      · intro habs
        simp only [mkRing] at habs
        exact absurd habs (by decide)
    · subst hn
      rcases detectSmurfing_type txs (nodeStatsList txs) q hq with ht | ht <;>
      · refine ⟨?_, ?_, ?_⟩
        · intro habs
          simp only [mkRing, ht] at habs
          exact absurd habs (by decide)
        · intro _
          simp only [mkRing]
          congr 1
          omega
        · intro habs
          simp only [mkRing, ht] at habs
          exact absurd habs (by decide)
    · subst hn
      refine ⟨?_, ?_, ?_⟩
      · intro habs
        simp only [mkRing] at habs
        exact absurd habs (by decide)
      · intro habs
        rcases habs with habs | habs <;> simp only [mkRing] at habs <;>
          exact absurd habs (by decide)
      · intro _
        simp only [mkRing]
        congr 1
        omega

/-- C4 witness: the §8 three-cycle's ring is a cycle ring of risk 90. -/
theorem ring_risk_score_formula_witness :
    ∃ c ∈ findCycles (adjListOf exCycle) (allNodesOf exCycle) 3 5,
      (FraudRing.mk "RING_001" ["A", "B", "C"] "cycle" 90).member_accounts =
        filteredMembers (legitOf exCycle) c ∧
      (FraudRing.mk "RING_001" ["A", "B", "C"] "cycle" 90).risk_score =
        min 100 ((75 + 3 * c.length) + 2 *
          (FraudRing.mk "RING_001" ["A", "B", "C"] "cycle" 90).member_accounts.length) ∧
      (c.length = 3 →
        (FraudRing.mk "RING_001" ["A", "B", "C"] "cycle" 90).member_accounts.length = 3 →
        (FraudRing.mk "RING_001" ["A", "B", "C"] "cycle" 90).risk_score = 90) :=
  (ring_risk_score_formula exCycle
    (FraudRing.mk "RING_001" ["A", "B", "C"] "cycle" 90) (by decide)).1 rfl

/-! ## The velocity bonus (scoring stage) -/

theorem mkSuspicious_account_id (txs : List Transaction)
    (aP : List (String × List String)) (p : String × List String) :
    (mkSuspicious txs aP p).account_id = p.1 := rfl

theorem mkSuspicious_patterns (txs : List Transaction)
    (aP : List (String × List String)) (p : String × List String) :
    (mkSuspicious txs aP p).detected_patterns =
      if velocityCheck txs p.1 then
        (if "high_velocity" ∈ (lookupL aP p.1).getD []
         then (lookupL aP p.1).getD []
         else (lookupL aP p.1).getD [] ++ ["high_velocity"])
      else (lookupL aP p.1).getD [] := rfl

theorem mkSuspicious_score (txs : List Transaction)
    (aP : List (String × List String)) (p : String × List String) :
    (mkSuspicious txs aP p).suspicion_score =
      min 100 (basePatternScore ((lookupL aP p.1).getD []) p.2.length +
        (if velocityCheck txs p.1 then 15 else 0)) := rfl

/-- Membership in the scoring loop output: one entry per non-excluded
`acctRings` entry. -/
theorem mem_buildSuspicious (txs : List Transaction) (legit : List String)
    (aR aP : List (String × List String)) (s : SuspiciousAccount) :
    s ∈ buildSuspicious txs legit aR aP ↔
      ∃ p ∈ aR, legit.contains p.1 = false ∧ s = mkSuspicious txs aP p := by
  rw [buildSuspicious]
  suffices hgen : ∀ acc : List SuspiciousAccount,
      s ∈ aR.foldl
        (fun acc p =>
          if legit.contains p.1 then acc
          else acc ++ [mkSuspicious txs aP p]) acc ↔
      s ∈ acc ∨ ∃ p ∈ aR, legit.contains p.1 = false ∧
        s = mkSuspicious txs aP p by
    rw [hgen []]
    simp
  intro acc
  induction aR generalizing acc with
  | nil => simp
  | cons p rest ih =>
    simp only [List.foldl_cons]
    by_cases hl : legit.contains p.1
    · rw [if_pos hl, ih]
      constructor
      · rintro (hp | ⟨q, hq, hql, hqe⟩)
        · exact Or.inl hp
        · exact Or.inr ⟨q, List.mem_cons_of_mem _ hq, hql, hqe⟩
      · rintro (hp | ⟨q, hq, hql, hqe⟩)
        · exact Or.inl hp
        · rcases List.mem_cons.mp hq with rfl | hq
          · rw [hl] at hql
            exact absurd hql (by simp)
          · exact Or.inr ⟨q, hq, hql, hqe⟩
    · rw [if_neg hl, ih]
      simp only [List.mem_append, List.mem_singleton]
      constructor
      · rintro ((hp | hp) | ⟨q, hq, hql, hqe⟩)
        · exact Or.inl hp
        · exact Or.inr ⟨p, List.mem_cons_self _ _,
            Bool.eq_false_iff.mpr hl, hp⟩
        · exact Or.inr ⟨q, List.mem_cons_of_mem _ hq, hql, hqe⟩
      · rintro (hp | ⟨q, hq, hql, hqe⟩)
        · exact Or.inl (Or.inl hp)
        · rcases List.mem_cons.mp hq with rfl | hq
          · exact Or.inl (Or.inr hqe)
          · exact Or.inr ⟨q, hq, hql, hqe⟩

/-- The hour comparison `spanH < 24` of the source is the millisecond
comparison the embedding computes with. -/
theorem spanHours_lt_24_iff (txs : List Transaction) (id : String) :
    spanHoursTouching txs id < 24 ↔
      spanMsTouching txs id < 24 * 3600000 := by
  rw [spanHoursTouching, div_lt_iff₀ (by norm_num : (0 : ℚ) < 3600000)]
  constructor
  · intro h
    exact_mod_cast h
  · intro h
    exact_mod_cast h

/-- C2 (amended): if an account in the suspicious output has more than
5 touching transfers in total and the full span from its earliest to
its latest touching transfer is under 24 hours, then its entry carries
the `high_velocity` tag and its score is the clamped base score plus
the +15 velocity bonus.  (The source checks the span of all touching
transfers, not of an arbitrary 24-hour sub-window.) -/
theorem suspicious_velocity_bonus (txs : List Transaction)
    (s : SuspiciousAccount)
    (hs : s ∈ (analyzeTransactions txs).suspicious_accounts)
    (hcount : 5 < (touchingTxs txs s.account_id).length)
    (hspan : spanHoursTouching txs s.account_id < 24) :
    "high_velocity" ∈ s.detected_patterns ∧
    s.suspicion_score = min 100 (basePatternScore
      ((lookupL (ringStateOf txs).acctPatterns s.account_id).getD [])
      ((lookupL (ringStateOf txs).acctRings s.account_id).getD []).length
      + 15) := by
  rw [analyze_suspicious, sortSuspicious] at hs
  have hs' := (List.perm_insertionSort
    (fun a b => b.suspicion_score ≤ a.suspicion_score)
    (buildSuspicious txs (legitOf txs) (ringStateOf txs).acctRings
      (ringStateOf txs).acctPatterns)).mem_iff.mp hs
  obtain ⟨p, hp, _, rfl⟩ := (mem_buildSuspicious _ _ _ _ s).mp hs'
  rw [mkSuspicious_account_id] at hcount hspan ⊢
  have hvel : velocityCheck txs p.1 = true := by
    have h1 : 1 < (touchingTxs txs p.1).length := by omega
    simp only [velocityCheck]
    rw [if_pos h1, Bool.and_eq_true, decide_eq_true_iff, decide_eq_true_iff]
    exact ⟨(spanHours_lt_24_iff txs p.1).mp hspan, hcount⟩
  have hrid : lookupL (ringStateOf txs).acctRings p.1 = some p.2 := by
    refine lookupL_of_mem_nodup _ _ _ ?_ hp
    exact (addRing_keys_nodup (legitOf txs) _ ⟨0, [], [], []⟩
      (by simp [keysOf]) (by simp [keysOf])).1
  constructor
  · rw [mkSuspicious_patterns, if_pos hvel]
    by_cases hin : "high_velocity" ∈
        (lookupL (ringStateOf txs).acctPatterns p.1).getD []
    · rwa [if_pos hin]
    · rw [if_neg hin]
      exact List.mem_append_right _ (List.mem_singleton_self _)
  · rw [mkSuspicious_score, if_pos hvel, hrid]
    rfl

/-- C2 counterexample: in `exCex`, account `A` is in the suspicious
output and 6 of its touching transfers (more than 5) lie inside the
24-hour window `[0, 24h]`, yet its entry has no `high_velocity` tag:
the extra transfer at hour 1000 stretches the full span past 24 hours,
and the source only tests the full span. -/
theorem velocity_bonus_counterexample :
    ("A" ∈ (analyzeTransactions exCex).suspicious_accounts.map (·.account_id)) ∧
    5 < ((touchingTxs exCex "A").filter
      (fun t => decide (0 ≤ t.timestamp ∧ t.timestamp ≤ 24 * 3600000))).length ∧
    ∀ s ∈ (analyzeTransactions exCex).suspicious_accounts,
      s.account_id = "A" → "high_velocity" ∉ s.detected_patterns := by
  decide

/-- C2 witness for the amended statement: in `exVel`, account `A` has 6
touching transfers spanning 6 hours; its entry is tagged and scores
`min 100 (35 + 15) = 50`. -/
theorem suspicious_velocity_bonus_witness :
    5 < (touchingTxs exVel "A").length ∧
    spanHoursTouching exVel "A" < 24 ∧
    ("high_velocity" ∈
      (SuspiciousAccount.mk "A" 50 ["cycle_length_3", "high_velocity"]
        "RING_001").detected_patterns ∧
    (SuspiciousAccount.mk "A" 50 ["cycle_length_3", "high_velocity"]
        "RING_001").suspicion_score = min 100 (basePatternScore
      ((lookupL (ringStateOf exVel).acctPatterns
        (SuspiciousAccount.mk "A" 50 ["cycle_length_3", "high_velocity"]
          "RING_001").account_id).getD [])
      ((lookupL (ringStateOf exVel).acctRings
        (SuspiciousAccount.mk "A" 50 ["cycle_length_3", "high_velocity"]
          "RING_001").account_id).getD []).length + 15)) := by
  refine ⟨by decide, ?_, ?_⟩
  · exact (spanHours_lt_24_iff exVel "A").mpr (by decide)
  · exact suspicious_velocity_bonus exVel
      (SuspiciousAccount.mk "A" 50 ["cycle_length_3", "high_velocity"]
        "RING_001") (by decide) (by decide)
      ((spanHours_lt_24_iff exVel "A").mpr (by decide))

/-! ## Invariants of the cycle search -/

/-- Every cycle recorded while scanning an edge list is the current
path (within bounds, duplicate-free, nonempty) or comes from a deeper
search rooted at a fresh target. -/
theorem dfsEdges_spec (start : String) (minLen maxLen : ℕ)
    (processed : List String)
    (deeper : String → List String → ℕ → List (List String))
    (hdeeper : ∀ t path d c, path.length = d + 1 → path.Nodup →
      c ∈ deeper t path d →
      minLen ≤ c.length ∧ c.length ≤ maxLen ∧ c.Nodup ∧ c ≠ []) :
    ∀ edges path depth c, path.length = depth + 1 → path.Nodup →
      c ∈ dfsEdges start minLen maxLen processed deeper edges path depth →
      minLen ≤ c.length ∧ c.length ≤ maxLen ∧ c.Nodup ∧ c ≠ [] := by
  intro edges
  induction edges with
  | nil =>
    intro path depth c _ _ hc
    simp [dfsEdges] at hc
  | cons e rest ih =>
    intro path depth c hlen hnd hc
    rw [dfsEdges] at hc
    rcases List.mem_append.mp hc with hc | hc
    · by_cases h1 : e.target = start ∧ minLen ≤ depth + 1 ∧ depth + 1 ≤ maxLen
      · rw [if_pos h1, List.mem_singleton] at hc
        subst hc
        exact ⟨by omega, by omega, hnd, by
          intro habs
          rw [habs] at hlen
          simp at hlen⟩
      · rw [if_neg h1] at hc
        by_cases h2 : e.target ∉ path ∧ e.target ∉ processed ∧
            depth + 1 < maxLen
        · rw [if_pos h2] at hc
          refine hdeeper e.target (path ++ [e.target]) (depth + 1) c ?_ ?_ hc
          · simp [hlen]
          · simp [List.nodup_append, hnd, h2.1]
        · rw [if_neg h2] at hc
          simp at hc
    · exact ih path depth c hlen hnd hc

/-- The depth-first search only records paths within the length
bounds, duplicate-free and nonempty. -/
theorem dfsCycles_spec (adj : String → List EdgeInfo) (start : String)
    (minLen maxLen : ℕ) (processed : List String) :
    ∀ fuel current path depth c, path.length = depth + 1 → path.Nodup →
      c ∈ dfsCycles adj start minLen maxLen processed fuel current path depth →
      minLen ≤ c.length ∧ c.length ≤ maxLen ∧ c.Nodup ∧ c ≠ [] := by
  intro fuel
  induction fuel with
  | zero =>
    intro current path depth c hlen hnd hc
    rw [dfsCycles] at hc
    refine dfsEdges_spec start minLen maxLen processed _ ?_
      (adj current) path depth c hlen hnd hc
    intro t path' d c' _ _ hc'
    simp at hc'
  | succ f ih =>
    intro current path depth c hlen hnd hc
    rw [dfsCycles] at hc
    exact dfsEdges_spec start minLen maxLen processed _
      (fun t path' d c' h1 h2 h3 => ih t path' d c' h1 h2 h3)
      (adj current) path depth c hlen hnd hc

/-- Every discovered (pre-deduplication) cycle is within the length
bounds, duplicate-free and nonempty. -/
theorem cycleStarts_spec (adj : String → List EdgeInfo)
    (minLen maxLen : ℕ) :
    ∀ nodes processed c, c ∈ cycleStarts adj minLen maxLen nodes processed →
      minLen ≤ c.length ∧ c.length ≤ maxLen ∧ c.Nodup ∧ c ≠ [] := by
  intro nodes
  induction nodes with
  | nil =>
    intro processed c hc
    simp [cycleStarts] at hc
  | cons start rest ih =>
    intro processed c hc
    rw [cycleStarts] at hc
    rcases List.mem_append.mp hc with hc | hc
    · exact dfsCycles_spec adj start minLen maxLen processed maxLen start
        [start] 0 c rfl (List.nodup_singleton start) hc
    · exact ih (processed ++ [start]) c hc

/-- Every deduplicated cycle is the normalization of a discovered one. -/
theorem mem_dedupCycles (l : List (List String)) (c : List String)
    (hc : c ∈ dedupCycles l) : ∃ c₀ ∈ l, c = normalizeCycle c₀ := by
  rw [dedupCycles] at hc
  suffices hgen : ∀ st : List String × List (List String),
      c ∈ (l.foldl
        (fun (st : List String × List (List String)) c =>
          let n := normalizeCycle c
          let key := cycleKey n
          if key ∈ st.1 then st else (st.1 ++ [key], st.2 ++ [n])) st).2 →
      c ∈ st.2 ∨ ∃ c₀ ∈ l, c = normalizeCycle c₀ by
    rcases hgen ([], []) hc with h | h
    · simp at h
    · exact h
  clear hc
  induction l with
  | nil =>
    intro st hst
    exact Or.inl hst
  | cons c0 rest ih =>
    intro st hst
    simp only [List.foldl_cons] at hst
    by_cases hk : cycleKey (normalizeCycle c0) ∈ st.1
    · simp only [hk, if_true] at hst
      rcases ih st hst with h | ⟨c₀, hc₀, he⟩
      · exact Or.inl h
      · exact Or.inr ⟨c₀, List.mem_cons_of_mem _ hc₀, he⟩
    · simp only [hk, if_false] at hst
      rcases ih _ hst with h | ⟨c₀, hc₀, he⟩
      · rcases List.mem_append.mp h with h | h
        · exact Or.inl h
        · rw [List.mem_singleton] at h
          exact Or.inr ⟨c0, List.mem_cons_self _ _, h⟩
      · exact Or.inr ⟨c₀, List.mem_cons_of_mem _ hc₀, he⟩

/-- Normalization is a rotation, so it preserves the length. -/
theorem length_normalizeCycle (c : List String) :
    (normalizeCycle c).length = c.length := by
  rw [normalizeCycle]
  simp only [List.length_append, List.length_drop, List.length_take]
  have h := List.indexOf_le_length (a := minOfCycle c) (l := c)
  omega

/-- C6: every cycle returned by `findCycles` with `minLen = 3` and
`maxLen = 5` has length at least 3 and at most 5 (in particular a
self-loop, which would be a length-1 cycle, never appears). -/
theorem findCycles_length_bounds (adj : String → List EdgeInfo)
    (nodes : List String) (c : List String)
    (hc : c ∈ findCycles adj nodes 3 5) :
    3 ≤ c.length ∧ c.length ≤ 5 := by
  rw [findCycles] at hc
  obtain ⟨c₀, hc₀, rfl⟩ := mem_dedupCycles _ c hc
  obtain ⟨h1, h2, _, _⟩ := cycleStarts_spec adj 3 5 nodes [] c₀ hc₀
  rw [length_normalizeCycle]
  exact ⟨h1, h2⟩

/-- C6 witness: the cycle of the §8 scenario has length 3. -/
theorem findCycles_length_bounds_witness :
    3 ≤ (["A", "B", "C"] : List String).length ∧
      (["A", "B", "C"] : List String).length ≤ 5 :=
  findCycles_length_bounds (adjListOf exCycle) (allNodesOf exCycle)
    ["A", "B", "C"] (by decide)

/-! ## The smurfing threshold -/

theorem scanFanIn_some (all : List Transaction) :
    ∀ anchors s, scanFanIn all anchors = some s →
      ∃ a ∈ anchors, 10 ≤ (fanInWindowSenders all a).length ∧
        s = fanInWindowSenders all a := by
  intro anchors
  induction anchors with
  | nil =>
    intro s hs
    simp [scanFanIn] at hs
  | cons a rest ih =>
    intro s hs
    rw [scanFanIn] at hs
    by_cases h10 : 10 ≤ (fanInWindowSenders all a).length
    · rw [if_pos h10] at hs
      obtain rfl : fanInWindowSenders all a = s := by simpa using hs
      exact ⟨a, List.mem_cons_self _ _, h10, rfl⟩
    · rw [if_neg h10] at hs
      obtain ⟨a', ha', h10', hs'⟩ := ih s hs
      exact ⟨a', List.mem_cons_of_mem _ ha', h10', hs'⟩

theorem scanFanIn_isSome (all : List Transaction) :
    ∀ anchors a, a ∈ anchors → 10 ≤ (fanInWindowSenders all a).length →
      (scanFanIn all anchors).isSome = true := by
  intro anchors
  induction anchors with
  | nil =>
    intro a ha
    simp at ha
  | cons a0 rest ih =>
    intro a ha h10
    rw [scanFanIn]
    by_cases h0 : 10 ≤ (fanInWindowSenders all a0).length
    · rw [if_pos h0]
      rfl
    · rw [if_neg h0]
      rcases List.mem_cons.mp ha with rfl | ha
      · exact absurd h10 h0
      · exact ih a ha h10

theorem scanFanOut_some (all : List Transaction) :
    ∀ anchors s, scanFanOut all anchors = some s →
      ∃ a ∈ anchors, 10 ≤ (fanOutWindowRecvs all a).length ∧
        s = fanOutWindowRecvs all a := by
  intro anchors
  induction anchors with
  | nil =>
    intro s hs
    simp [scanFanOut] at hs
  | cons a rest ih =>
    intro s hs
    rw [scanFanOut] at hs
    by_cases h10 : 10 ≤ (fanOutWindowRecvs all a).length
    · rw [if_pos h10] at hs
      obtain rfl : fanOutWindowRecvs all a = s := by simpa using hs
      exact ⟨a, List.mem_cons_self _ _, h10, rfl⟩
    · rw [if_neg h10] at hs
      obtain ⟨a', ha', h10', hs'⟩ := ih s hs
      exact ⟨a', List.mem_cons_of_mem _ ha', h10', hs'⟩

theorem scanFanOut_isSome (all : List Transaction) :
    ∀ anchors a, a ∈ anchors → 10 ≤ (fanOutWindowRecvs all a).length →
      (scanFanOut all anchors).isSome = true := by
  intro anchors
  induction anchors with
  | nil =>
    intro a ha
    simp at ha
  | cons a0 rest ih =>
    intro a ha h10
    rw [scanFanOut]
    by_cases h0 : 10 ≤ (fanOutWindowRecvs all a0).length
    · rw [if_pos h0]
      rfl
    · rw [if_neg h0]
      rcases List.mem_cons.mp ha with rfl | ha
      · exact absurd h10 h0
      · exact ih a ha h10

/-- The keys of a `groupByKey` map are duplicate-free. -/
theorem groupByKey_keys_nodup (key : Transaction → String)
    (txs : List Transaction) : (keysOf (groupByKey key txs)).Nodup := by
  rw [groupByKey]
  suffices hgen : ∀ m : List (String × List Transaction), (keysOf m).Nodup →
      (keysOf (txs.foldl (fun m t => pushVal m (key t) t) m)).Nodup by
    exact hgen [] (by simp [keysOf])
  induction txs with
  | nil => exact fun m h => h
  | cons t rest ih =>
    intro m hm
    exact ih (pushVal m (key t) t) (keysOf_pushVal_nodup m (key t) t hm)

/-- C7: the smurfing threshold is inclusive, per direction.  A receiver
with an anchored 72-hour window holding exactly 10 distinct senders
produces a fan_in hit headed by that receiver; a receiver all of whose
anchored windows hold at most 9 distinct senders produces none; and the
mirrored statements hold for senders and fan_out. -/
theorem smurfing_threshold (txs : List Transaction)
    (ns : List (String × NodeStats)) (r : String) :
    (10 ∈ fanInWindowCounts txs r →
      ∃ p ∈ detectSmurfing txs ns, p.type = "fan_in" ∧
        p.accounts.head? = some r) ∧
    ((∀ n ∈ fanInWindowCounts txs r, n ≤ 9) →
      ¬ ∃ p ∈ detectSmurfing txs ns, p.type = "fan_in" ∧
        p.accounts.head? = some r) ∧
    (10 ∈ fanOutWindowCounts txs r →
      ∃ p ∈ detectSmurfing txs ns, p.type = "fan_out" ∧
        p.accounts.head? = some r) ∧
    ((∀ n ∈ fanOutWindowCounts txs r, n ≤ 9) →
      ¬ ∃ p ∈ detectSmurfing txs ns, p.type = "fan_out" ∧
        p.accounts.head? = some r) := by
  refine ⟨?_, ?_, ?_, ?_⟩
  · intro h10
    rw [fanInWindowCounts] at h10
    obtain ⟨a, ha, hlen⟩ := List.mem_map.mp h10
    rcases hg : lookupL (groupByKey (·.receiver_id) txs) r with _ | glist
    · rw [hg] at ha hlen
      simp [sortByTs] at ha
    · rw [hg] at ha hlen
      have hmem : (r, glist) ∈ groupByKey (·.receiver_id) txs :=
        mem_of_lookupL_eq_some _ _ _ hg
      have hsome := scanFanIn_isSome (sortByTs glist) (sortByTs glist) a
        (by simpa using ha) (by simp at hlen ⊢; omega)
      rcases hscan : scanFanIn (sortByTs glist) (sortByTs glist) with _ | s
      · rw [hscan] at hsome
        simp at hsome
      · refine ⟨⟨"fan_in", r :: s⟩, ?_, rfl, rfl⟩
        exact (mem_detectSmurfing_iff txs ns _).mpr
          (Or.inl ⟨(r, glist), hmem, s, by simpa using hscan, rfl⟩)
  · rintro hle ⟨p, hp, htype, hhead⟩
    rcases (mem_detectSmurfing_iff txs ns p).mp hp with
      ⟨g, hg, s, hscan, rfl⟩ | ⟨g, hg, s, hscan, rfl⟩
    · obtain rfl : g.1 = r := by simpa using hhead
      have hlook : lookupL (groupByKey (·.receiver_id) txs) g.1 = some g.2 :=
        lookupL_of_mem_nodup _ _ _
          (groupByKey_keys_nodup (·.receiver_id) txs) hg
      obtain ⟨a, ha, h10, _⟩ := scanFanIn_some _ _ _ hscan
      have hcnt : (fanInWindowSenders (sortByTs g.2) a).length ∈
          fanInWindowCounts txs g.1 := by
        rw [fanInWindowCounts, hlook]
        exact List.mem_map.mpr ⟨a, by simpa using ha, rfl⟩
      have := hle _ hcnt
      omega
    · simp at htype
  · intro h10
    rw [fanOutWindowCounts] at h10
    obtain ⟨a, ha, hlen⟩ := List.mem_map.mp h10
    rcases hg : lookupL (groupByKey (·.sender_id) txs) r with _ | glist
    · rw [hg] at ha hlen
      simp [sortByTs] at ha
    · rw [hg] at ha hlen
      have hmem : (r, glist) ∈ groupByKey (·.sender_id) txs :=
        mem_of_lookupL_eq_some _ _ _ hg
      have hsome := scanFanOut_isSome (sortByTs glist) (sortByTs glist) a
        (by simpa using ha) (by simp at hlen ⊢; omega)
      rcases hscan : scanFanOut (sortByTs glist) (sortByTs glist) with _ | s
      · rw [hscan] at hsome
        simp at hsome
      · refine ⟨⟨"fan_out", r :: s⟩, ?_, rfl, rfl⟩
        exact (mem_detectSmurfing_iff txs ns _).mpr
          (Or.inr ⟨(r, glist), hmem, s, by simpa using hscan, rfl⟩)
  · rintro hle ⟨p, hp, htype, hhead⟩
    rcases (mem_detectSmurfing_iff txs ns p).mp hp with
      ⟨g, hg, s, hscan, rfl⟩ | ⟨g, hg, s, hscan, rfl⟩
    · simp at htype
    · obtain rfl : g.1 = r := by simpa using hhead
      have hlook : lookupL (groupByKey (·.sender_id) txs) g.1 = some g.2 :=
        lookupL_of_mem_nodup _ _ _
          (groupByKey_keys_nodup (·.sender_id) txs) hg
      obtain ⟨a, ha, h10, _⟩ := scanFanOut_some _ _ _ hscan
      have hcnt : (fanOutWindowRecvs (sortByTs g.2) a).length ∈
          fanOutWindowCounts txs g.1 := by
        rw [fanOutWindowCounts, hlook]
        exact List.mem_map.mpr ⟨a, by simpa using ha, rfl⟩
      have := hle _ hcnt
      omega

/-- C7 witness: with exactly 10 distinct senders inside one 72-hour
window a fan_in hit for `R` exists; with 9 senders it does not. -/
theorem smurfing_threshold_witness :
    (∃ p ∈ detectSmurfing exFan10 [], p.type = "fan_in" ∧
      p.accounts.head? = some "R") ∧
    ¬ (∃ p ∈ detectSmurfing exFan9 [], p.type = "fan_in" ∧
      p.accounts.head? = some "R") :=
  ⟨(smurfing_threshold exFan10 [] "R").1 (by decide),
   (smurfing_threshold exFan9 [] "R").2.1 (by decide)⟩

/-! ## Shell-network chains -/

/-- The extension loop only appends to the chain it is given. -/
theorem extendChain_append (adj : String → List EdgeInfo)
    (stats : String → Option NodeStats) :
    ∀ fuel chain visited cur, ∃ ext,
      extendChain adj stats fuel chain visited cur = chain ++ ext := by
  intro fuel
  induction fuel with
  | zero =>
    intro chain visited cur
    exact ⟨[], by simp [extendChain]⟩
  | succ f ih =>
    intro chain visited cur
    rw [extendChain]
    by_cases h8 : chain.length < 8
    · rw [if_pos h8]
      rcases hfind : ((adj cur).filter
          (fun e => !visited.contains e.target)).find?
          (fun e => isShell stats e.target) with _ | e
      · rcases hne : (adj cur).filter (fun e => !visited.contains e.target) with
          _ | ⟨e, rest⟩
        · refine ⟨[], ?_⟩
          simp only [hfind]
          simp only [hne, List.append_nil]
        · refine ⟨[e.target], ?_⟩
          simp only [hfind]
          simp only [hne]
      · obtain ⟨ext, hext⟩ := ih (chain ++ [e.target])
          (visited ++ [e.target]) e.target
        refine ⟨[e.target] ++ ext, ?_⟩
        simp only [hfind]
        rw [hext, List.append_assoc]
    · rw [if_neg h8]
      exact ⟨[], by simp⟩

/-- The extension loop never grows a chain past 8 accounts. -/
theorem extendChain_length_le (adj : String → List EdgeInfo)
    (stats : String → Option NodeStats) :
    ∀ fuel chain visited cur, chain.length ≤ 8 →
      (extendChain adj stats fuel chain visited cur).length ≤ 8 := by
  intro fuel
  induction fuel with
  | zero =>
    intro chain visited cur h
    simpa [extendChain] using h
  | succ f ih =>
    intro chain visited cur h
    rw [extendChain]
    by_cases h8 : chain.length < 8
    · rw [if_pos h8]
      rcases hfind : ((adj cur).filter
          (fun e => !visited.contains e.target)).find?
          (fun e => isShell stats e.target) with _ | e
      · rcases hne : (adj cur).filter (fun e => !visited.contains e.target) with
          _ | ⟨e, rest⟩
        · simp only [hfind]
          simp only [hne]
          exact h
        · simp only [hfind]
          simp only [hne, List.length_append, List.length_singleton]
          omega
      · simp only [hfind]
        refine ih (chain ++ [e.target]) (visited ++ [e.target]) e.target ?_
        simp only [List.length_append, List.length_singleton]
        omega
    · rwa [if_neg h8]

/-- Except possibly for its last element, everything the extension loop
appends is a shell account; so if the input chain's tail is all shell,
the output chain's interior (tail with the last element dropped) is all
shell. -/
theorem extendChain_shell_interior (adj : String → List EdgeInfo)
    (stats : String → Option NodeStats) :
    ∀ fuel chain visited cur, chain ≠ [] →
      (∀ a ∈ chain.tail, isShell stats a = true) →
      ∀ a ∈ (extendChain adj stats fuel chain visited cur).tail.dropLast,
        isShell stats a = true := by
  intro fuel
  induction fuel with
  | zero =>
    intro chain visited cur _ htail a ha
    rw [extendChain] at ha
    exact htail a ((List.dropLast_sublist chain.tail).subset ha)
  | succ f ih =>
    intro chain visited cur hne htail a ha
    rw [extendChain] at ha
    by_cases h8 : chain.length < 8
    · rw [if_pos h8] at ha
      rcases hfind : ((adj cur).filter
          (fun e => !visited.contains e.target)).find?
          (fun e => isShell stats e.target) with _ | e
      · rcases hne' : (adj cur).filter (fun e => !visited.contains e.target) with
          _ | ⟨e, rest⟩
        · simp only [hfind] at ha
          simp only [hne'] at ha
          exact htail a ((List.dropLast_sublist chain.tail).subset ha)
        · simp only [hfind] at ha
          simp only [hne'] at ha
          rw [List.tail_append_of_ne_nil hne, List.dropLast_concat] at ha
          exact htail a ha
      · simp only [hfind] at ha
        have hshell : isShell stats e.target = true := by
          simpa using List.find?_some hfind
        refine ih (chain ++ [e.target]) (visited ++ [e.target]) e.target
          (by simp) ?_ a ha
        intro b hb
        rw [List.tail_append_of_ne_nil hne] at hb
        rcases List.mem_append.mp hb with hb | hb
        · exact htail b hb
        · rw [List.mem_singleton] at hb
          rw [hb]
          exact hshell
    · rw [if_neg h8] at ha
      exact htail a ((List.dropLast_sublist chain.tail).subset ha)

/-- The shape every kept shell chain has: length between 4 and 8, a
high-activity head, and all-shell interior accounts. -/
def shellChainOK (stats : String → Option NodeStats) (c : List String) : Prop :=
  4 ≤ c.length ∧ c.length ≤ 8 ∧
  (∃ s0, stats (c.headD "") = some s0 ∧ 3 < s0.totalTransactions) ∧
  (∀ a ∈ c.tail.dropLast, isShell stats a = true)

/-- The state invariant of the two `detectShellNetworks` loops. -/
def ShellInv (stats : String → Option NodeStats)
    (st : List String × List (List String)) : Prop :=
  (∀ c ∈ st.2, shellChainOK stats c) ∧ st.2.Nodup ∧
  (∀ c ∈ st.2, String.intercalate "→" c ∈ st.1)

theorem shellEdgeStep_inv (adj : String → List EdgeInfo)
    (stats : String → Option NodeStats) (start : String)
    (hstart : ∃ s0, stats start = some s0 ∧ 3 < s0.totalTransactions)
    (st : List String × List (List String)) (edge : EdgeInfo)
    (hinv : ShellInv stats st) :
    ShellInv stats (shellEdgeStep adj stats start st edge) := by
  obtain ⟨inv1, inv2, inv3⟩ := hinv
  rw [shellEdgeStep]
  by_cases hsh : isShell stats edge.target = true
  · rw [if_pos hsh]
    simp only
    set chain := extendChain adj stats 8 [start, edge.target]
      [start, edge.target] edge.target with hchain
    by_cases h4 : 4 ≤ chain.length
    · rw [if_pos h4]
      by_cases hkey : String.intercalate "→" chain ∈ st.1
      · rw [if_pos hkey]
        exact ⟨inv1, inv2, inv3⟩
      · rw [if_neg hkey]
        have hok : shellChainOK stats chain := by
          obtain ⟨ext, hext⟩ := extendChain_append adj stats 8
            [start, edge.target] [start, edge.target] edge.target
          refine ⟨h4, ?_, ?_, ?_⟩
          · exact extendChain_length_le adj stats 8 _ _ _ (by simp)
          · obtain ⟨s0, hs0, h3⟩ := hstart
            rw [← hchain] at hext
            rw [hext]
            exact ⟨s0, by simpa using hs0, h3⟩
          · refine extendChain_shell_interior adj stats 8 _ _ _
              (by simp) ?_
            intro b hb
            simp only [List.tail_cons, List.mem_singleton] at hb
            rw [hb]
            exact hsh
        refine ⟨?_, ?_, ?_⟩
        · intro c hc
          rcases List.mem_append.mp hc with hc | hc
          · exact inv1 c hc
          · rw [List.mem_singleton] at hc
            rw [hc]
            exact hok
        · rw [List.nodup_append]
          refine ⟨inv2, List.nodup_singleton _, ?_⟩
          intro c hc hc'
          rw [List.mem_singleton] at hc'
          subst hc'
          exact hkey (inv3 _ hc)
        · intro c hc
          rcases List.mem_append.mp hc with hc | hc
          · exact List.mem_append_left _ (inv3 c hc)
          · rw [List.mem_singleton] at hc
            subst hc
            exact List.mem_append_right _ (List.mem_singleton_self _)
    · rw [if_neg h4]
      exact ⟨inv1, inv2, inv3⟩
  · rw [if_neg hsh]
    exact ⟨inv1, inv2, inv3⟩

theorem shellStep_inv (adj : String → List EdgeInfo)
    (stats : String → Option NodeStats)
    (st : List String × List (List String)) (start : String)
    (hinv : ShellInv stats st) :
    ShellInv stats (shellStep adj stats st start) := by
  rw [shellStep]
  rcases hs : stats start with _ | s0
  · exact hinv
  · simp only
    by_cases h3 : s0.totalTransactions ≤ 3
    · rwa [if_pos h3]
    · rw [if_neg h3]
      have hstart : ∃ s1, stats start = some s1 ∧ 3 < s1.totalTransactions :=
        ⟨s0, hs, by omega⟩
      generalize adj start = edges
      induction edges generalizing st with
      | nil => exact hinv
      | cons e rest ih =>
        rw [List.foldl_cons]
        exact ih (shellEdgeStep adj stats start st e)
          (shellEdgeStep_inv adj stats start hstart st e hinv)

/-- C8: every emitted shell chain has between 4 and 8 accounts, its
first account has more than 3 total transactions, every account other
than the first and the last has at most 3 total transactions, and no
two emitted chains have the same account sequence. -/
theorem detectShellNetworks_spec (adj : String → List EdgeInfo)
    (stats : String → Option NodeStats) (allNodes : List String) :
    (∀ chain ∈ detectShellNetworks adj stats allNodes,
      4 ≤ chain.length ∧ chain.length ≤ 8 ∧
      (∃ s0, stats (chain.headD "") = some s0 ∧ 3 < s0.totalTransactions) ∧
      (∀ a ∈ chain.tail.dropLast, isShell stats a = true)) ∧
    (detectShellNetworks adj stats allNodes).Nodup := by
  rw [detectShellNetworks]
  suffices hgen : ∀ (nodes : List String)
      (st : List String × List (List String)),
      ShellInv stats st → ShellInv stats (nodes.foldl (shellStep adj stats) st) by
    obtain ⟨h1, h2, _⟩ := hgen allNodes ([], [])
      ⟨by simp, List.nodup_nil, by simp⟩
    exact ⟨h1, h2⟩
  intro nodes
  induction nodes with
  | nil => exact fun st h => h
  | cons n rest ih =>
    intro st hinv
    rw [List.foldl_cons]
    exact ih (shellStep adj stats st n) (shellStep_inv adj stats st n hinv)

/-- C8 witness: the chain `H → Sa → Sb → Sc` of `exShell` has length 4,
a high-activity head and shell interior accounts. -/
theorem detectShellNetworks_spec_witness :
    4 ≤ (["H", "Sa", "Sb", "Sc"] : List String).length ∧
    (["H", "Sa", "Sb", "Sc"] : List String).length ≤ 8 ∧
    (∃ s0, statsFnOf exShell ((["H", "Sa", "Sb", "Sc"] : List String).headD "") =
      some s0 ∧ 3 < s0.totalTransactions) ∧
    (∀ a ∈ (["H", "Sa", "Sb", "Sc"] : List String).tail.dropLast,
      isShell (statsFnOf exShell) a = true) :=
  (detectShellNetworks_spec (adjListOf exShell) (statsFnOf exShell)
    (allNodesOf exShell)).1 ["H", "Sa", "Sb", "Sc"] (by decide)

/-! ## Cycle canonicalization -/

/-- The executable JS comparison agrees with the ambient strict order
on strings. -/
theorem jsStrLt_iff_lt (a b : String) : jsStrLt a b = true ↔ a < b := by
  rw [jsStrLt, decide_eq_true_iff, String.lt_iff_toList_lt]
  exact Iff.rfl

/-- One step of the minimum fold is the lattice minimum. -/
theorem jsStrLt_step_eq_min (m id : String) :
    (if jsStrLt id m then id else m) = min m id := by
  by_cases h : jsStrLt id m = true
  · rw [if_pos h]
    exact (min_eq_right ((jsStrLt_iff_lt id m).mp h).le).symm
  · rw [if_neg h]
    have hnl : ¬ id < m := fun hlt => h ((jsStrLt_iff_lt id m).mpr hlt)
    exact (min_eq_left (le_of_not_lt hnl)).symm

theorem minOfCycle_eq_foldl_min (c : List String) :
    minOfCycle c = c.foldl min (c.headD "") := by
  rw [minOfCycle]
  have hf : (fun m id => if jsStrLt id m then id else m) =
      (fun m id : String => min m id) := by
    funext m id
    exact jsStrLt_step_eq_min m id
  rw [hf]

theorem foldl_min_mem (a : String) (l : List String) :
    l.foldl min a ∈ a :: l := by
  induction l generalizing a with
  | nil => simp
  | cons b t ih =>
    rw [List.foldl_cons]
    have h := ih (min a b)
    rcases List.mem_cons.mp h with h | h
    · rcases min_choice a b with hm | hm
      · exact List.mem_cons.mpr (Or.inl (h.trans hm))
      · exact List.mem_cons.mpr (Or.inr (List.mem_cons.mpr
          (Or.inl (h.trans hm))))
    · exact List.mem_cons.mpr (Or.inr (List.mem_cons.mpr (Or.inr h)))

theorem foldl_min_le (a : String) (l : List String) :
    ∀ x ∈ a :: l, l.foldl min a ≤ x := by
  induction l generalizing a with
  | nil =>
    intro x hx
    rw [List.mem_singleton] at hx
    subst hx
    exact le_refl _
  | cons b t ih =>
    intro x hx
    rw [List.foldl_cons]
    rcases List.mem_cons.mp hx with hxa | hx
    · rw [hxa]
      exact le_trans (ih (min a b) (min a b) (List.mem_cons_self _ _))
        (min_le_left a b)
    · rcases List.mem_cons.mp hx with hxb | hx
      · rw [hxb]
        exact le_trans (ih (min a b) (min a b) (List.mem_cons_self _ _))
          (min_le_right a b)
      · exact ih (min a b) x (List.mem_cons_of_mem _ hx)

theorem minOfCycle_mem (c : List String) (hne : c ≠ []) :
    minOfCycle c ∈ c := by
  rcases c with _ | ⟨x, xs⟩
  · exact absurd rfl hne
  · rw [minOfCycle_eq_foldl_min]
    simp only [List.headD_cons, List.foldl_cons]
    have h := foldl_min_mem (min x x) xs
    rw [min_self] at h
    rcases List.mem_cons.mp h with h | h
    · simp [h]
    · simp [h]

theorem minOfCycle_le (c : List String) : ∀ x ∈ c, minOfCycle c ≤ x := by
  rcases c with _ | ⟨y, ys⟩
  · intro x hx
    simp at hx
  · intro x hx
    rw [minOfCycle_eq_foldl_min]
    simp only [List.headD_cons, List.foldl_cons, min_self]
    exact foldl_min_le y ys x hx

/-- The fold minimum only depends on the multiset of members. -/
theorem minOfCycle_perm (c c' : List String) (h : c.Perm c') (hne : c ≠ []) :
    minOfCycle c = minOfCycle c' := by
  have hne' : c' ≠ [] := by
    intro habs
    rw [habs] at h
    exact hne (List.Perm.eq_nil h)
  have h1 : minOfCycle c ∈ c' := h.mem_iff.mp (minOfCycle_mem c hne)
  have h2 : minOfCycle c' ∈ c := h.mem_iff.mpr (minOfCycle_mem c' hne')
  exact le_antisymm (minOfCycle_le c _ h2) (minOfCycle_le c' _ h1)

theorem normalizeCycle_eq_rotate (c : List String) :
    normalizeCycle c = c.rotate (c.indexOf (minOfCycle c)) := by
  rw [normalizeCycle,
    List.rotate_eq_drop_append_take (List.indexOf_le_length)]

theorem head?_normalizeCycle (c : List String) (hne : c ≠ []) :
    (normalizeCycle c).head? = some (minOfCycle c) := by
  rw [normalizeCycle_eq_rotate,
    List.head?_rotate (List.indexOf_lt_length.mpr (minOfCycle_mem c hne)),
    ← List.get?_eq_getElem?]
  exact List.indexOf_get? (minOfCycle_mem c hne)

/-- Two rotations of a duplicate-free list with the same head agree. -/
theorem rotate_head_inj (c : List String) (hnd : c.Nodup) (a b : ℕ)
    (ha : a < c.length) (hb : b < c.length)
    (hh : (c.rotate a).head? = (c.rotate b).head?) :
    c.rotate a = c.rotate b := by
  rw [List.head?_rotate ha, List.head?_rotate hb,
    List.getElem?_eq_getElem ha, List.getElem?_eq_getElem hb] at hh
  obtain hab : a = b :=
    (List.Nodup.getElem_inj_iff hnd).mp (by simpa using hh)
  rw [hab]

/-- Normalization is invariant under rotation of a duplicate-free,
nonempty cycle. -/
theorem normalizeCycle_rotate (c : List String) (k : ℕ) (hnd : c.Nodup)
    (hne : c ≠ []) :
    normalizeCycle (c.rotate k) = normalizeCycle c := by
  have hlen : 0 < c.length := List.length_pos.mpr hne
  have hperm : (c.rotate k).Perm c := List.rotate_perm c k
  have hne' : c.rotate k ≠ [] := by
    intro habs
    apply hne
    have hl := congrArg List.length habs
    rw [List.length_rotate] at hl
    exact List.length_eq_zero.mp hl
  have hmin : minOfCycle (c.rotate k) = minOfCycle c :=
    minOfCycle_perm _ _ hperm hne'
  have hmem : minOfCycle c ∈ c := minOfCycle_mem c hne
  have hi : c.indexOf (minOfCycle c) < c.length :=
    List.indexOf_lt_length.mpr hmem
  have h2 : normalizeCycle (c.rotate k) =
      c.rotate ((k + (c.rotate k).indexOf (minOfCycle c)) % c.length) := by
    rw [normalizeCycle_eq_rotate, hmin, List.rotate_rotate, ← List.rotate_mod]
  have hmod : (k + (c.rotate k).indexOf (minOfCycle c)) % c.length <
      c.length := Nat.mod_lt _ hlen
  have hheads : (c.rotate ((k + (c.rotate k).indexOf (minOfCycle c)) %
      c.length)).head? = (c.rotate (c.indexOf (minOfCycle c))).head? := by
    rw [← h2, ← normalizeCycle_eq_rotate, head?_normalizeCycle _ hne',
      head?_normalizeCycle c hne, hmin]
  rw [h2, normalizeCycle_eq_rotate c]
  exact rotate_head_inj c hnd _ _ hmod hi hheads

/-- Monotonicity of the seen-key set through the deduplication fold. -/
theorem dedup_seen_mono (l : List (List String)) :
    ∀ st : List String × List (List String), ∀ K ∈ st.1,
      K ∈ (l.foldl
        (fun (st : List String × List (List String)) c =>
          let n := normalizeCycle c
          let key := cycleKey n
          if key ∈ st.1 then st else (st.1 ++ [key], st.2 ++ [n])) st).1 := by
  induction l with
  | nil => exact fun st K hK => hK
  | cons c0 rest ih =>
    intro st K hK
    rw [List.foldl_cons]
    by_cases hk : cycleKey (normalizeCycle c0) ∈ st.1
    · simp only [hk, if_true]
      exact ih st K hK
    · simp only [hk, if_false]
      exact ih _ K (List.mem_append_left _ hK)

/-- The deduplication fold keeps exactly one entry per seen key, and
every processed cycle's key ends up seen. -/
theorem dedup_fold_inv (l : List (List String)) :
    ∀ st : List String × List (List String),
      (∀ K : String,
        (st.2.filter (fun x => cycleKey x == K)).length =
          if K ∈ st.1 then 1 else 0) →
      (∀ K : String,
        (((l.foldl
          (fun (st : List String × List (List String)) c =>
            let n := normalizeCycle c
            let key := cycleKey n
            if key ∈ st.1 then st else (st.1 ++ [key], st.2 ++ [n])) st).2.filter
            (fun x => cycleKey x == K)).length) =
          if K ∈ (l.foldl
            (fun (st : List String × List (List String)) c =>
              let n := normalizeCycle c
              let key := cycleKey n
              if key ∈ st.1 then st else (st.1 ++ [key], st.2 ++ [n])) st).1
          then 1 else 0) ∧
      (∀ c ∈ l, cycleKey (normalizeCycle c) ∈ (l.foldl
        (fun (st : List String × List (List String)) c =>
          let n := normalizeCycle c
          let key := cycleKey n
          if key ∈ st.1 then st else (st.1 ++ [key], st.2 ++ [n])) st).1) := by
  induction l with
  | nil =>
    intro st h
    exact ⟨h, by simp⟩
  | cons c0 rest ih =>
    intro st h
    rw [List.foldl_cons]
    by_cases hk : cycleKey (normalizeCycle c0) ∈ st.1
    · simp only [hk, if_true]
      refine ⟨(ih st h).1, ?_⟩
      intro c hc
      rcases List.mem_cons.mp hc with rfl | hc
      · exact dedup_seen_mono rest st _ hk
      · exact (ih st h).2 c hc
    · simp only [hk, if_false]
      have hstep : ∀ K : String,
          (((st.1 ++ [cycleKey (normalizeCycle c0)],
            st.2 ++ [normalizeCycle c0]) :
              List String × List (List String)).2.filter
            (fun x => cycleKey x == K)).length =
          if K ∈ (st.1 ++ [cycleKey (normalizeCycle c0)]) then 1 else 0 := by
        intro K
        simp only [List.filter_append, List.length_append]
        rw [h K]
        by_cases hK : K = cycleKey (normalizeCycle c0)
        · subst hK
          rw [if_neg hk]
          simp
        · have hb : (cycleKey (normalizeCycle c0) == K) = false := by
            simp only [beq_eq_false_iff_ne, ne_eq]
            exact fun habs => hK habs.symm
          simp only [List.filter_cons, hb, List.filter_nil,
            List.length_nil, Nat.add_zero, List.mem_append,
            List.mem_singleton]
          by_cases hKs : K ∈ st.1
          · simp [hKs]
          · simp [hKs, fun habs => hK habs]
      refine ⟨(ih _ hstep).1, ?_⟩
      intro c hc
      rcases List.mem_cons.mp hc with rfl | hc
      · exact dedup_seen_mono rest _ _
          (List.mem_append_right _ (List.mem_singleton_self _))
      · exact (ih _ hstep).2 c hc

/-- C5: two discovered cycles that are rotations of one another share
the same canonical form, and the deduplicated output of `findCycles`
holds exactly one cycle with that canonical key, so the same cycle
yields exactly one ring regardless of which start account found it. -/
theorem cycle_canonicalization (adj : String → List EdgeInfo)
    (nodes : List String) (c₁ c₂ : List String)
    (h₁ : c₁ ∈ cycleStarts adj 3 5 nodes [])
    (_h₂ : c₂ ∈ cycleStarts adj 3 5 nodes [])
    (hrot : c₁.IsRotated c₂) :
    normalizeCycle c₁ = normalizeCycle c₂ ∧
    ((findCycles adj nodes 3 5).filter
      (fun c => cycleKey c == cycleKey (normalizeCycle c₁))).length = 1 := by
  obtain ⟨_, _, hnd, hne⟩ := cycleStarts_spec adj 3 5 nodes [] c₁ h₁
  obtain ⟨k, hk⟩ := hrot
  constructor
  · rw [← hk, normalizeCycle_rotate c₁ k hnd hne]
  · rw [findCycles, dedupCycles]
    have hinv := dedup_fold_inv (cycleStarts adj 3 5 nodes []) ([], [])
      (by intro K; simp)
    rw [(hinv.1 (cycleKey (normalizeCycle c₁))),
      if_pos (hinv.2 c₁ h₁)]

/-- C5 witness: the §8 cycle, rotated trivially, keeps its canonical
form and appears exactly once among the deduplicated cycles. -/
theorem cycle_canonicalization_witness :
    normalizeCycle ["A", "B", "C"] = normalizeCycle ["A", "B", "C"] ∧
    ((findCycles (adjListOf exCycle) (allNodesOf exCycle) 3 5).filter
      (fun c => cycleKey c ==
        cycleKey (normalizeCycle ["A", "B", "C"]))).length = 1 :=
  cycle_canonicalization (adjListOf exCycle) (allNodesOf exCycle)
    ["A", "B", "C"] ["A", "B", "C"] (by decide) (by decide)
    (List.IsRotated.refl _)

end Rifthack
